import Mathlib

/-!
Verification of the json-config-sync configuration normalization engine.

The development shallowly embeds the engine's data model and operations:

* JSON-like values (`JsonValue` / `JsonList` / `JsonFields`) as mutual
  first-order inductives mirroring the JSON object/array/scalar structure
  used throughout the TypeScript source (`Record<string, unknown>` values).
* The merge engine (`deepMerge`, `stripMergeDirectives`,
  `createMergeContext`).  Its source file (`src/merge.ts`) is not part of
  the source snapshot; the definitions here are modelled from the spec
  (section 4.2) and constrained by the behavior asserted in the repo's own
  test files.
* The environment interpolator (`interpolateEnvVars` over `src/env.ts`),
  likewise modelled from the spec (section 4.3) and the `env` test file.
* The validator (`validateRawConfig` over `src/config-validator.ts`),
  modelled from the spec (section 4.1) and the validator test file.
* The normalizer `normalizeConfig`, translated directly from the source
  file present in the snapshot (`src/unnamed/part_001`, the
  config-normalizer module).

Reading the process environment is side-effecting in the source; here every
function that consults the environment takes an explicit
`env : String → Option String` snapshot, as licensed by the spec's
concurrency section ("treated as a stable snapshot").
-/

-- =============================================================================
-- JSON-like values
-- =============================================================================

mutual

/-- A JSON-like value (`unknown` in the TypeScript source): string, number,
boolean, null, array, or object.  Numbers are modelled as integers; no claim
depends on non-integral numerics. -/
inductive JsonValue where
  | str (s : String)
  | num (n : Int)
  | bool (b : Bool)
  | null
  | arr (xs : JsonList)
  | obj (fields : JsonFields)
deriving DecidableEq, Repr

/-- A JSON array, as a first-order list of `JsonValue`. -/
inductive JsonList where
  | nil
  | cons (head : JsonValue) (tail : JsonList)
deriving DecidableEq, Repr

/-- JSON object fields: an ordered association list of key/value pairs, the
ordered-key model of a JavaScript object. -/
inductive JsonFields where
  | nil
  | cons (key : String) (val : JsonValue) (tail : JsonFields)
deriving DecidableEq, Repr

end

/-- Concatenation of JSON arrays (JavaScript `[...a, ...b]`). -/
def jappend : JsonList → JsonList → JsonList
  | JsonList.nil, ys => ys
  | JsonList.cons x xs, ys => JsonList.cons x (jappend xs ys)

/-- Key lookup in an object, first occurrence wins (JavaScript property
access on an object built left-to-right). -/
def lookupKey : JsonFields → String → Option JsonValue
  | JsonFields.nil, _ => none
  | JsonFields.cons k v rest, key => if k = key then some v else lookupKey rest key

/-- Property assignment `o[key] = v`: replaces the value at an existing key
in place, appends the key otherwise. -/
def setKey : JsonFields → String → JsonValue → JsonFields
  | JsonFields.nil, key, v => JsonFields.cons key v JsonFields.nil
  | JsonFields.cons k w rest, key, v =>
      if k = key then JsonFields.cons k v rest else JsonFields.cons k w (setKey rest key v)

/-- The ordered key list of an object. -/
def keysOf : JsonFields → List String
  | JsonFields.nil => []
  | JsonFields.cons k _ rest => k :: keysOf rest

-- =============================================================================
-- Merge engine (modelled from the spec; src/merge.ts is absent from the
-- source snapshot, only its callers and tests are present)
-- =============================================================================

/-- Array merge strategies (`ArrayMergeStrategy` in `src/merge.ts`). -/
inductive ArrayMergeStrategy where
  | replace
  | append
  | prepend
deriving DecidableEq, Repr

/-- Modelled from the spec: `createMergeContext` packages the ambient
(document- or file-level) array strategy; the context carries nothing else. -/
def createMergeContext (defaultStrategy : ArrayMergeStrategy) : ArrayMergeStrategy :=
  defaultStrategy

/-- Modelled from the spec: detection of the reserved MergeDirective shape
`\x7b $arrayMerge: "append"|"prepend", values: Sequence \x7d` on an object's
fields, returning the directive's strategy and values. -/
def getDirective (fields : JsonFields) : Option (ArrayMergeStrategy × JsonList) :=
  match lookupKey fields "$arrayMerge", lookupKey fields "values" with
  | some (JsonValue.str "append"), some (JsonValue.arr vs) =>
      some (ArrayMergeStrategy.append, vs)
  | some (JsonValue.str "prepend"), some (JsonValue.arr vs) =>
      some (ArrayMergeStrategy.prepend, vs)
  | _, _ => none

/-- Does a value have the MergeDirective shape at its top level? -/
def isDirectiveValue : JsonValue → Bool
  | JsonValue.obj fields => (getDirective fields).isSome
  | _ => false

/-- The base sequence a directive merges against: `base[k]` when it is a
sequence, the empty sequence otherwise (in particular when absent). -/
def baseSeqOf : Option JsonValue → JsonList
  | some (JsonValue.arr ys) => ys
  | _ => JsonList.nil

mutual

/-- Modelled from the spec: merging one overlay value onto the (optional)
base value at the same key.
* A MergeDirective overlay resolves immediately against the base sequence,
  its own strategy winning over the ambient one.
* Two mappings recurse key-by-key.
* Two plain sequences combine by the ambient strategy.
* Otherwise the overlay value replaces the base value outright. -/
def mergeValue (ctx : ArrayMergeStrategy) (b : Option JsonValue) : JsonValue → JsonValue
  | JsonValue.obj ofields =>
      match getDirective ofields with
      | some (strat, vs) =>
          match strat with
          | ArrayMergeStrategy.prepend => JsonValue.arr (jappend vs (baseSeqOf b))
          | _ => JsonValue.arr (jappend (baseSeqOf b) vs)
      | none =>
          match b with
          | some (JsonValue.obj bfields) => JsonValue.obj (mergeFields ctx bfields ofields)
          | _ => JsonValue.obj ofields
  | JsonValue.arr xs =>
      match b with
      | some (JsonValue.arr ys) =>
          match ctx with
          | ArrayMergeStrategy.replace => JsonValue.arr xs
          | ArrayMergeStrategy.append => JsonValue.arr (jappend ys xs)
          | ArrayMergeStrategy.prepend => JsonValue.arr (jappend xs ys)
      | _ => JsonValue.arr xs
  | JsonValue.str s => JsonValue.str s
  | JsonValue.num n => JsonValue.num n
  | JsonValue.bool b2 => JsonValue.bool b2
  | JsonValue.null => JsonValue.null

/-- Modelled from the spec: fold the overlay's keys left-to-right into the
base object, merging each overlay value onto the accumulated object. -/
def mergeFields (ctx : ArrayMergeStrategy) (bfields : JsonFields) : JsonFields → JsonFields
  | JsonFields.nil => bfields
  | JsonFields.cons k v rest =>
      mergeFields ctx (setKey bfields k (mergeValue ctx (lookupKey bfields k) v)) rest

end

/-- Modelled from the spec: `deepMerge(base, overlay, strategyContext)`. -/
def deepMerge (base overlay : JsonFields) (ctx : ArrayMergeStrategy) : JsonFields :=
  mergeFields ctx base overlay

mutual

/-- Modelled from the spec: `stripMergeDirectives` recursively replaces any
remaining bare MergeDirective shape with its values sequence, leaving all
other structure untouched.  Children are stripped first, then the node
itself is tested for the directive shape. -/
def stripValue : JsonValue → JsonValue
  | JsonValue.arr xs => JsonValue.arr (stripList xs)
  | JsonValue.obj fields =>
      match getDirective (stripFields fields) with
      | some (_, vs) => JsonValue.arr vs
      | none => JsonValue.obj (stripFields fields)
  | JsonValue.str s => JsonValue.str s
  | JsonValue.num n => JsonValue.num n
  | JsonValue.bool b => JsonValue.bool b
  | JsonValue.null => JsonValue.null

/-- `stripMergeDirectives` over the elements of an array. -/
def stripList : JsonList → JsonList
  | JsonList.nil => JsonList.nil
  | JsonList.cons v rest => JsonList.cons (stripValue v) (stripList rest)

/-- `stripMergeDirectives` over the values of an object. -/
def stripFields : JsonFields → JsonFields
  | JsonFields.nil => JsonFields.nil
  | JsonFields.cons k v rest => JsonFields.cons k (stripValue v) (stripFields rest)

end

mutual

/-- Does a MergeDirective shape occur anywhere inside a value? -/
def containsDir : JsonValue → Bool
  | JsonValue.arr xs => containsDirList xs
  | JsonValue.obj fields => (getDirective fields).isSome || containsDirFields fields
  | _ => false

/-- Directive occurrence inside any element of an array. -/
def containsDirList : JsonList → Bool
  | JsonList.nil => false
  | JsonList.cons v rest => containsDir v || containsDirList rest

/-- Directive occurrence inside any value of an object. -/
def containsDirFields : JsonFields → Bool
  | JsonFields.nil => false
  | JsonFields.cons _ v rest => containsDir v || containsDirFields rest

end

-- =============================================================================
-- Environment interpolator (modelled from the spec; src/env.ts is absent
-- from the source snapshot, only its callers and tests are present)
-- =============================================================================

/-- Characters allowed in a variable name: letters, digits, underscore. -/
def isNameChar (c : Char) : Bool :=
  c.isAlphanum || c = '_'

/-- Split a character list into its longest name-character run and the rest. -/
def takeName : List Char → List Char × List Char
  | [] => ([], [])
  | c :: rest =>
      if isNameChar c then
        ((takeName rest).1.cons c, (takeName rest).2)
      else ([], c :: rest)

/-- Split at the first closing brace: the text before it and the rest after
it; `none` when no closing brace exists. -/
def splitAtBrace : List Char → Option (List Char × List Char)
  | [] => none
  | c :: rest =>
      if c = '}' then some ([], rest)
      else
        match splitAtBrace rest with
        | some (a, b) => some ((a.cons c), b)
        | none => none

/-- The three recognized occurrence forms inside a placeholder. -/
inductive VarForm where
  | plain
  | dflt (d : List Char)
  | req (m : List Char)
deriving DecidableEq, Repr

/-- Parse one of the three recognized forms after the variable name: a
closing brace (plain), colon-dash then default text to the closing brace,
or colon-question then message text to the closing brace. -/
def parseFormAfter (name : List Char) : List Char → Option (List Char × VarForm × List Char)
  | [] => none
  | c :: r =>
      if c = '}' then some (name, VarForm.plain, r)
      else if c = ':' then
        match r with
        | [] => none
        | c2 :: r2 =>
            if c2 = '-' then
              (splitAtBrace r2).map (fun p => (name, VarForm.dflt p.1, p.2))
            else if c2 = '?' then
              (splitAtBrace r2).map (fun p => (name, VarForm.req p.1, p.2))
            else none
      else none

/-- Parse the inside of a placeholder, after the opening dollar-brace: a
non-empty name followed by one of the three recognized forms, returning the
name, the form, and the characters after the closing brace. -/
def parsePlaceholder (cs : List Char) : Option (List Char × VarForm × List Char) :=
  match takeName cs with
  | ([], _) => none
  | (name, r1) => parseFormAfter name r1

/-- Modelled from the spec: the left-to-right scanner over a string's
characters.  Each recognized occurrence is resolved independently;
a dollar sign not starting a recognized form is emitted verbatim.  The
first argument is structural fuel; any fuel exceeding the character count
is enough, and the top-level wrapper `interpolateChars` supplies it. -/
def interpScan (env : String → Option String) (strict : Bool) :
    Nat → List Char → Except String (List Char)
  | 0, cs => Except.ok cs
  | _ + 1, [] => Except.ok []
  | n + 1, c :: cs =>
      if c = '$' then
        match cs with
        | c2 :: cs2 =>
            if c2 = '{' then
              match parsePlaceholder cs2 with
              | some (name, VarForm.plain, rest) =>
                  match env (String.mk name) with
                  | some v => (fun t => v.data ++ t) <$> interpScan env strict n rest
                  | none =>
                      if strict then
                        Except.error ("Missing required environment variable: " ++ String.mk name)
                      else
                        (fun t => '$' :: '{' :: (name ++ '}' :: t)) <$> interpScan env strict n rest
              | some (name, VarForm.dflt d, rest) =>
                  (fun t =>
                     (match env (String.mk name) with
                      | some v => v.data
                      | none => d) ++ t) <$> interpScan env strict n rest
              | some (name, VarForm.req m, rest) =>
                  match env (String.mk name) with
                  | some v => (fun t => v.data ++ t) <$> interpScan env strict n rest
                  | none => Except.error (String.mk name ++ ": " ++ String.mk m)
              | none => (fun t => '$' :: t) <$> interpScan env strict n cs
            else (fun t => '$' :: t) <$> interpScan env strict n cs
        | [] => (fun t => '$' :: t) <$> interpScan env strict n cs
      else (fun t => c :: t) <$> interpScan env strict n cs

/-- Interpolate one string's characters (scanner at sufficient fuel). -/
def interpolateChars (env : String → Option String) (strict : Bool)
    (cs : List Char) : Except String (List Char) :=
  interpScan env strict (cs.length + 1) cs

/-- Interpolate one string value. -/
def interpolateString (env : String → Option String) (strict : Bool)
    (s : String) : Except String String :=
  (fun cs => String.mk cs) <$> interpolateChars env strict s.data

mutual

/-- Modelled from the spec: recursive interpolation over a JSON-like value;
string values are scanned, mappings and sequences are visited recursively,
non-string scalars are untouched. -/
def interpValue (env : String → Option String) (strict : Bool) :
    JsonValue → Except String JsonValue
  | JsonValue.str s => (fun r => JsonValue.str r) <$> interpolateString env strict s
  | JsonValue.arr xs => (fun r => JsonValue.arr r) <$> interpList env strict xs
  | JsonValue.obj fields => (fun r => JsonValue.obj r) <$> interpFields env strict fields
  | JsonValue.num n => Except.ok (JsonValue.num n)
  | JsonValue.bool b => Except.ok (JsonValue.bool b)
  | JsonValue.null => Except.ok JsonValue.null

/-- Interpolation over the elements of an array. -/
def interpList (env : String → Option String) (strict : Bool) :
    JsonList → Except String JsonList
  | JsonList.nil => Except.ok JsonList.nil
  | JsonList.cons v rest => do
      let v2 ← interpValue env strict v
      let r2 ← interpList env strict rest
      Except.ok (JsonList.cons v2 r2)

/-- Interpolation over the values of an object (keys are not interpolated). -/
def interpFields (env : String → Option String) (strict : Bool) :
    JsonFields → Except String JsonFields
  | JsonFields.nil => Except.ok JsonFields.nil
  | JsonFields.cons k v rest => do
      let v2 ← interpValue env strict v
      let r2 ← interpFields env strict rest
      Except.ok (JsonFields.cons k v2 r2)

end

/-- `EnvInterpolationOptions` from `src/env.ts` (modelled from its test
file): an optional strictness flag. -/
structure EnvInterpolationOptions where
  strict : Option Bool
deriving DecidableEq, Repr

/-- Modelled from the spec and the env test file: `interpolateEnvVars`
with an optional options argument; strictness defaults to true when the
options argument or its `strict` field is omitted. -/
def interpolateEnvVars (env : String → Option String) (value : JsonValue)
    (options : Option EnvInterpolationOptions) : Except String JsonValue :=
  interpValue env ((options.bind (fun o => o.strict)).getD true) value

-- =============================================================================
-- Raw and normalized configuration types (from src/config.ts declarations
-- as used by the normalizer source in src/unnamed/part_001)
-- =============================================================================

/-- A repo entry's `git` field: a single URL or a sequence of URLs. -/
inductive GitField where
  | single (url : String)
  | multiple (urls : List String)
deriving DecidableEq, Repr

/-- A file's base specification: base content, optional array-merge
strategy, optional create-only flag. -/
structure FileSpec where
  content : Option JsonFields
  mergeStrategy : Option ArrayMergeStrategy
  createOnly : Option Bool
deriving DecidableEq, Repr

/-- A repo-level per-file override object. -/
structure RepoFileConfig where
  override : Option Bool
  content : Option JsonFields
  createOnly : Option Bool
deriving DecidableEq, Repr

/-- A repo-level per-file setting: `false` (exclude the file) or an
override object. -/
inductive RepoFileSetting where
  | exclude
  | cfg (c : RepoFileConfig)
deriving DecidableEq, Repr

/-- One raw repo entry: a git target (optional here so that a missing
`git` field is representable for validation) and an optional per-file
override map. -/
structure RawRepoEntry where
  git : Option GitField
  files : Option (List (String × RepoFileSetting))
deriving DecidableEq, Repr

/-- The raw document: the file-name → FileSpec map, the repo entries, and
the optional document-level default merge strategy (referenced by the spec;
the normalizer source never reads it). -/
structure RawConfig where
  files : List (String × FileSpec)
  repos : List RawRepoEntry
  mergeStrategy : Option ArrayMergeStrategy
deriving DecidableEq, Repr

/-- One resolved output file: name, fully resolved content, and the
resolved create-only flag (kept optional, exactly as the normalizer
computes it). -/
structure FileContent where
  fileName : String
  content : JsonValue
  createOnly : Option Bool
deriving DecidableEq, Repr

/-- One expanded output repo: a single git URL plus its resolved files. -/
structure RepoConfig where
  git : String
  files : List FileContent
deriving DecidableEq, Repr

/-- The normalized configuration. -/
structure Config where
  repos : List RepoConfig
deriving DecidableEq, Repr

/-- Generic association-list lookup, used for the file maps. -/
def lookupAssoc {α : Type} : List (String × α) → String → Option α
  | [], _ => none
  | (k, v) :: rest, key => if k = key then some v else lookupAssoc rest key

/-- JavaScript nullish coalescing `a ?? b` on optional values. -/
def jsNullish {α : Type} : Option α → Option α → Option α
  | some x, _ => some x
  | none, y => y

-- =============================================================================
-- Validator (modelled from the spec; src/config-validator.ts is absent
-- from the source snapshot, only its test file is present)
-- =============================================================================

/-- Split a character list into slash-separated path segments. -/
def pathSegments : List Char → List (List Char)
  | [] => [[]]
  | c :: rest =>
      if c = '/' then [] :: pathSegments rest
      else
        match pathSegments rest with
        | [] => [[c]]
        | t :: more => (c :: t) :: more

/-- Does the name contain a `..` path segment (slash-separated)? -/
def hasDotDotSegment (s : String) : Bool :=
  (pathSegments s.data).contains ['.', '.']

/-- Is the name an absolute (slash-rooted) path? -/
def isAbsolutePath (s : String) : Bool :=
  match s.data with
  | '/' :: _ => true
  | _ => false

/-- Does the name contain a newline, carriage-return, or null byte? -/
def hasCtlChar (s : String) : Bool :=
  s.data.any (fun c => c = '\n' || c = '\r' || c = Char.ofNat 0)

/-- Modelled from the spec: a target file name must be a safe relative
path; each violation class yields its own distinct message (message texts
follow the validator test file's expectations). -/
def validateFileName (name : String) : Except String Unit :=
  if name = "" then
    Except.error "Config missing required field: fileName"
  else if hasDotDotSegment name then
    Except.error "Invalid fileName: must be a relative path (no path traversal)"
  else if isAbsolutePath name then
    Except.error "Invalid fileName: must be a relative path (not an absolute path)"
  else if hasCtlChar name then
    Except.error "Invalid fileName: cannot contain newlines or null bytes"
  else Except.ok ()

/-- All declared file names pass the file-name checks. -/
def validateFileNames : List (String × FileSpec) → Except String Unit
  | [] => Except.ok ()
  | (fn, _) :: rest => do
      validateFileName fn
      validateFileNames rest

/-- JavaScript truthiness of a repo's `git` field: absent and the empty
string are falsy; arrays (even empty ones) are truthy. -/
def gitPresent : Option GitField → Bool
  | none => false
  | some (GitField.single s) => s ≠ ""
  | some (GitField.multiple _) => true

/-- The repo's display URL for diagnostics: the first git URL, or
"unknown" when it is empty or missing. -/
def firstGitUrl : Option GitField → String
  | some (GitField.single s) => s
  | some (GitField.multiple (u :: _)) => if u = "" then "unknown" else u
  | some (GitField.multiple []) => "unknown"
  | none => "unknown"

/-- Modelled from the spec: per-(repo, fileName) checks — an excluded file
needs nothing; otherwise content must come from the base spec or the
override; `override: true` requires override content, reported with the
repo's first git URL. -/
def validateRepoFiles (gitUrl : String) (i : Nat) (r : RawRepoEntry) :
    List (String × FileSpec) → Except String Unit
  | [] => Except.ok ()
  | (fn, fs) :: rest =>
      match r.files.bind (fun m => lookupAssoc m fn) with
      | some RepoFileSetting.exclude => validateRepoFiles gitUrl i r rest
      | some (RepoFileSetting.cfg o) =>
          if fs.content.isNone && o.content.isNone then
            Except.error ("Repo at index " ++ toString i ++ " missing required field: content")
          else if o.override.getD false && o.content.isNone then
            Except.error (gitUrl ++ " has override: true but no content defined")
          else validateRepoFiles gitUrl i r rest
      | none =>
          if fs.content.isNone then
            Except.error ("Repo at index " ++ toString i ++ " missing required field: content")
          else validateRepoFiles gitUrl i r rest

/-- Modelled from the spec: checks for one repo entry — `git` required,
and, when an array, non-empty; then the per-file content checks. -/
def validateRepoEntry (files : List (String × FileSpec)) (i : Nat)
    (r : RawRepoEntry) : Except String Unit :=
  if gitPresent r.git = false then
    Except.error ("Repo at index " ++ toString i ++ " missing required field: git")
  else
    match r.git with
    | some (GitField.multiple []) =>
        Except.error ("Repo at index " ++ toString i ++ " has empty git array")
    | _ => validateRepoFiles (firstGitUrl r.git) i r files

/-- Validate the repo entries in order, reporting the lowest-index
offender. -/
def validateRepos (files : List (String × FileSpec)) :
    Nat → List RawRepoEntry → Except String Unit
  | _, [] => Except.ok ()
  | i, r :: rest => do
      validateRepoEntry files i r
      validateRepos files (i + 1) rest

/-- Modelled from the spec: `validateRawConfig` — file names must be safe,
`repos` must be a non-empty sequence, and every repo entry must pass its
checks, scanned in order. -/
def validateRawConfig (raw : RawConfig) : Except String Unit := do
  validateFileNames raw.files
  if raw.repos.isEmpty then
    Except.error "Config missing required field: repos (must be a non-empty array)"
  else validateRepos raw.files 0 raw.repos

-- =============================================================================
-- Normalizer (translated from src/unnamed/part_001, the config-normalizer
-- module present in the source snapshot)
-- =============================================================================

/-- Sequence a list of fallible computations, failing on the first error
(the normalizer's loops abort on the first failure). -/
def mapExcept {α β : Type} (f : α → Except String β) : List α → Except String (List β)
  | [] => Except.ok []
  | x :: rest => do
      let y ← f x
      let t ← mapExcept f rest
      Except.ok (y :: t)

/-- Resolve one (file, repo) pair, mirroring the per-file loop body of
`normalizeConfig` in the source: override mode strips the override content;
no override content inherits the base content as-is; merge mode deep-merges
base and override content under the file's strategy (defaulting to
`replace`) and strips the result; environment interpolation then runs in
strict mode, and `createOnly` is the repo-level value, falling back to the
file-level one. -/
def computeFileContent (env : String → Option String) (fileName : String)
    (fs : FileSpec) (ov : Option RepoFileConfig) : Except String FileContent :=
  let baseContent : JsonFields := fs.content.getD JsonFields.nil
  let fileStrategy : ArrayMergeStrategy := fs.mergeStrategy.getD ArrayMergeStrategy.replace
  let merged : JsonValue :=
    match ov with
    | some o =>
        if o.override.getD false then
          stripValue (JsonValue.obj (o.content.getD JsonFields.nil))
        else
          match o.content with
          | none => JsonValue.obj baseContent
          | some c =>
              stripValue (JsonValue.obj (deepMerge baseContent c (createMergeContext fileStrategy)))
    | none => JsonValue.obj baseContent
  (fun ic =>
     FileContent.mk fileName ic
       (jsNullish (ov.bind (fun o => o.createOnly)) fs.createOnly)) <$>
    interpValue env true merged

/-- The override object in effect for a file, if any (an exclusion or a
missing entry yields none). -/
def settingConfig : Option RepoFileSetting → Option RepoFileConfig
  | some (RepoFileSetting.cfg o) => some o
  | _ => none

/-- Is the file excluded (`false`) for this repo? -/
def settingExcluded : Option RepoFileSetting → Bool
  | some RepoFileSetting.exclude => true
  | _ => false

/-- Process each declared file in order for one expanded repo, skipping
excluded files. -/
def buildFiles (env : String → Option String)
    (repoFiles : Option (List (String × RepoFileSetting))) :
    List (String × FileSpec) → Except String (List FileContent)
  | [] => Except.ok []
  | (fn, fs) :: rest =>
      let setting := repoFiles.bind (fun m => lookupAssoc m fn)
      if settingExcluded setting then buildFiles env repoFiles rest
      else do
        let fc ← computeFileContent env fn fs (settingConfig setting)
        let t ← buildFiles env repoFiles rest
        Except.ok (fc :: t)

/-- Expansion of the `git` field into individual URLs.  A missing `git`
field (which validation rejects) is modelled as a single empty URL. -/
def gitUrlsOf : Option GitField → List String
  | some (GitField.single s) => [s]
  | some (GitField.multiple l) => l
  | none => [""]

/-- Expand one raw repo entry into one output repo per git URL, each with
its own independently computed files. -/
def expandRepo (env : String → Option String) (fileSpecs : List (String × FileSpec))
    (entry : RawRepoEntry) : Except String (List RepoConfig) :=
  mapExcept
    (fun url => do
       let files ← buildFiles env entry.files fileSpecs
       Except.ok (RepoConfig.mk url files))
    (gitUrlsOf entry.git)

/-- `normalizeConfig` from the source: expand git arrays, compute merged
content per (repo, file), interpolate environment variables in strict mode,
and assemble the output. -/
def normalizeConfig (env : String → Option String) (raw : RawConfig) :
    Except String Config := do
  let expanded ← mapExcept (expandRepo env raw.files) raw.repos
  Except.ok (Config.mk expanded.flatten)

/-- Decidable equality for fallible results, so concrete runs can be
checked by `decide`. -/
instance {ε α : Type} [DecidableEq ε] [DecidableEq α] : DecidableEq (Except ε α) := fun a b =>
  match a, b with
  | Except.ok x, Except.ok y =>
      if h : x = y then isTrue (by rw [h]) else isFalse (by intro hc; cases hc; exact h rfl)
  | Except.error x, Except.error y =>
      if h : x = y then isTrue (by rw [h]) else isFalse (by intro hc; cases hc; exact h rfl)
  | Except.ok _, Except.error _ => isFalse (by intro hc; cases hc)
  | Except.error _, Except.ok _ => isFalse (by intro hc; cases hc)


mutual

/-- No string value anywhere inside contains a dollar character (object
keys are ignored: the interpolator never rewrites keys). -/
def noDollar : JsonValue → Bool
  | JsonValue.str s => s.data.all (fun c => c != '$')
  | JsonValue.arr xs => noDollarList xs
  | JsonValue.obj fields => noDollarFields fields
  | _ => true

/-- Dollar-freeness of every element of an array. -/
def noDollarList : JsonList → Bool
  | JsonList.nil => true
  | JsonList.cons v rest => noDollar v && noDollarList rest

/-- Dollar-freeness of every value of an object. -/
def noDollarFields : JsonFields → Bool
  | JsonFields.nil => true
  | JsonFields.cons _ v rest => noDollar v && noDollarFields rest

end

/-- Dollar-freeness of an optional base value. -/
def noDollarOpt : Option JsonValue → Bool
  | none => true
  | some v => noDollar v


/-- Is a repo-file setting's override content dollar-free? -/
def settingNoDollar : RepoFileSetting → Bool
  | RepoFileSetting.exclude => true
  | RepoFileSetting.cfg o => noDollarFields (o.content.getD JsonFields.nil)


/-- Is every file's base content directive-free? -/
def docBasesFree (raw : RawConfig) : Bool :=
  raw.files.all (fun p => !containsDir (JsonValue.obj (p.2.content.getD JsonFields.nil)))

/-- Are all of one repo entry's override contents dollar-free? -/
def repoNoDollar (r : RawRepoEntry) : Bool :=
  match r.files with
  | none => true
  | some m => m.all (fun q => settingNoDollar q.2)

/-- Are all string values in the document's contents dollar-free (so that
interpolation is the identity on them)? -/
def docNoDollar (raw : RawConfig) : Bool :=
  raw.files.all (fun p => noDollarFields (p.2.content.getD JsonFields.nil)) &&
  raw.repos.all repoNoDollar


/-- Is a value a sequence? -/
def isArrValue : JsonValue → Bool
  | JsonValue.arr _ => true
  | _ => false

-- =============================================================================
-- Concrete documents and environments used to exercise the theorems
-- =============================================================================

/-- An environment snapshot with no variables defined. -/
def noEnv : String → Option String := fun _ => none

/-- An environment where only `EMPTY` is defined, as the empty string. -/
def emptyVarEnv : String → Option String :=
  fun n => if n = "EMPTY" then some "" else none

/-- A proper MergeDirective shape with values `[1]`. -/
def directiveExample : JsonValue :=
  JsonValue.obj (JsonFields.cons "$arrayMerge" (JsonValue.str "append")
    (JsonFields.cons "values" (JsonValue.arr (JsonList.cons (JsonValue.num 1) JsonList.nil))
      JsonFields.nil))

/-- A document whose base content for `a.json` contains a MergeDirective and
whose single repo gives no override: the normalizer's inherit path copies
the directive into the output. -/
def inheritLeakDoc : RawConfig :=
  RawConfig.mk
    [("a.json",
      FileSpec.mk (some (JsonFields.cons "x" directiveExample JsonFields.nil)) none none)]
    [RawRepoEntry.mk (some (GitField.single "git@github.com:org/repo.git")) none]
    none

/-- The config the inherit path produces for `inheritLeakDoc`: the
directive survives in the output content. -/
def inheritLeakConfig : Config :=
  Config.mk [RepoConfig.mk "git@github.com:org/repo.git"
    [FileContent.mk "a.json" (JsonValue.obj (JsonFields.cons "x" directiveExample JsonFields.nil))
      none]]

/-- A minimal well-behaved document: one file, directive-free dollar-free
base content, one repo without overrides. -/
def plainDoc : RawConfig :=
  RawConfig.mk
    [("config.json",
      FileSpec.mk (some (JsonFields.cons "key" (JsonValue.str "value") JsonFields.nil)) none none)]
    [RawRepoEntry.mk (some (GitField.single "u")) none]
    none

/-- The normalization result for `plainDoc`. -/
def plainDocConfig : Config :=
  Config.mk [RepoConfig.mk "u"
    [FileContent.mk "config.json"
      (JsonValue.obj (JsonFields.cons "key" (JsonValue.str "value") JsonFields.nil)) none]]

/-- A merge-mode document with document-level `mergeStrategy: append`, a
file without its own strategy, base `items: ["a"]`, and repo overlay
`items: ["b"]`. -/
def strategyCexDoc : RawConfig :=
  RawConfig.mk
    [("config.json",
      FileSpec.mk
        (some (JsonFields.cons "items"
          (JsonValue.arr (JsonList.cons (JsonValue.str "a") JsonList.nil)) JsonFields.nil))
        none none)]
    [RawRepoEntry.mk (some (GitField.single "u"))
      (some [("config.json",
        RepoFileSetting.cfg (RepoFileConfig.mk none
          (some (JsonFields.cons "items"
            (JsonValue.arr (JsonList.cons (JsonValue.str "b") JsonList.nil)) JsonFields.nil))
          none))])]
    (some ArrayMergeStrategy.append)

/-- What the code produces for `strategyCexDoc`: the replace strategy
applies, so `items` is `["b"]`. -/
def strategyCexActual : Config :=
  Config.mk [RepoConfig.mk "u"
    [FileContent.mk "config.json"
      (JsonValue.obj (JsonFields.cons "items"
        (JsonValue.arr (JsonList.cons (JsonValue.str "b") JsonList.nil)) JsonFields.nil))
      none]]

/-- What a document-level append default would produce for
`strategyCexDoc`: `items` as `["a", "b"]`. -/
def strategyCexClaimed : Config :=
  Config.mk [RepoConfig.mk "u"
    [FileContent.mk "config.json"
      (JsonValue.obj (JsonFields.cons "items"
        (JsonValue.arr (JsonList.cons (JsonValue.str "a")
          (JsonList.cons (JsonValue.str "b") JsonList.nil))) JsonFields.nil))
      none]]

/-- A document whose second repo entry lacks the `git` field. -/
def missingGitDoc : RawConfig :=
  RawConfig.mk
    [("config.json", FileSpec.mk (some JsonFields.nil) none none)]
    [RawRepoEntry.mk (some (GitField.single "git@github.com:org/repo1.git")) none,
     RawRepoEntry.mk none none]
    none

/-- A document whose target file name contains a `..` path segment. -/
def traversalNameDoc : RawConfig :=
  RawConfig.mk
    [("../x.json", FileSpec.mk (some JsonFields.nil) none none)]
    [RawRepoEntry.mk (some (GitField.single "u")) none]
    none

/-- A document with a safe nested target file name. -/
def goodNameDoc : RawConfig :=
  RawConfig.mk
    [("sub/dir/my.config.json", FileSpec.mk (some JsonFields.nil) none none)]
    [RawRepoEntry.mk (some (GitField.single "u")) none]
    none

-- =============================================================================
-- Object lookup and assignment lemmas
-- =============================================================================

theorem lookupKey_setKey_self (fs : JsonFields) (k : String) (v : JsonValue) :
    lookupKey (setKey fs k v) k = some v := by
  match fs with
  | JsonFields.nil => simp [setKey, lookupKey]
  | JsonFields.cons k0 w rest =>
      by_cases h : k0 = k
      · simp [setKey, h, lookupKey]
      · simp [setKey, h, lookupKey, lookupKey_setKey_self rest k v]

theorem lookupKey_setKey_ne (fs : JsonFields) (k : String) (v : JsonValue)
    (k' : String) (h : k ≠ k') :
    lookupKey (setKey fs k v) k' = lookupKey fs k' := by
  match fs with
  | JsonFields.nil => simp [setKey, lookupKey, h]
  | JsonFields.cons k0 w rest =>
      by_cases h0 : k0 = k
      · subst h0
        simp [setKey, lookupKey, h]
      · by_cases h1 : k0 = k'
        · simp [setKey, h0, lookupKey, h1, Ne.symm h]
        · simp [setKey, h0, lookupKey, h1, lookupKey_setKey_ne rest k v k' h]

theorem mem_keysOf_iff_lookupKey (fs : JsonFields) (k : String) :
    k ∈ keysOf fs ↔ (lookupKey fs k).isSome := by
  match fs with
  | JsonFields.nil => simp [keysOf, lookupKey]
  | JsonFields.cons k0 v rest =>
      by_cases h : k0 = k
      · simp [keysOf, lookupKey, h]
      · simp [keysOf, lookupKey, h, mem_keysOf_iff_lookupKey rest k]
        intro hk
        exact absurd hk.symm h

theorem lookupKey_eq_none_of_not_mem (fs : JsonFields) (k : String)
    (h : k ∉ keysOf fs) : lookupKey fs k = none := by
  have h2 := (mem_keysOf_iff_lookupKey fs k).not.mp h
  cases hl : lookupKey fs k with
  | none => rfl
  | some v => rw [hl] at h2; simp at h2

/-- The central description of the merge fold: the merged object's value at
a key is the overlay value merged onto the base value when the overlay has
the key, and the base value unchanged otherwise. -/
theorem lookupKey_mergeFields (ctx : ArrayMergeStrategy) :
    ∀ (ofs bfs : JsonFields), (keysOf ofs).Nodup → ∀ k : String,
      lookupKey (mergeFields ctx bfs ofs) k =
        match lookupKey ofs k with
        | some v => some (mergeValue ctx (lookupKey bfs k) v)
        | none => lookupKey bfs k := by
  intro ofs
  match ofs with
  | JsonFields.nil =>
      intro bfs _ k
      simp [mergeFields, lookupKey]
  | JsonFields.cons k0 v0 rest =>
      intro bfs hnd k
      have hk0rest : k0 ∉ keysOf rest := by
        simp [keysOf] at hnd
        exact hnd.1
      have hndrest : (keysOf rest).Nodup := by
        simp [keysOf] at hnd
        exact hnd.2
      by_cases h : k0 = k
      · subst h
        have hrest : lookupKey rest k0 = none := lookupKey_eq_none_of_not_mem rest k0 hk0rest
        simp only [mergeFields]
        rw [lookupKey_mergeFields ctx rest _ hndrest k0, hrest]
        simp [lookupKey, lookupKey_setKey_self]
      · simp only [mergeFields]
        rw [lookupKey_mergeFields ctx rest _ hndrest k]
        simp only [lookupKey, h, if_false]
        rw [lookupKey_setKey_ne _ _ _ _ h]

-- =============================================================================
-- Scanner parsing lemmas
-- =============================================================================

theorem takeName_parts : ∀ cs : List Char, (takeName cs).1 ++ (takeName cs).2 = cs := by
  intro cs
  induction cs with
  | nil => simp [takeName]
  | cons c rest ih =>
      by_cases h : isNameChar c
      · simp [takeName, h, ih]
      · simp [takeName, h]

theorem takeName_eq_of : ∀ (name rest : List Char),
    (∀ c ∈ name, isNameChar c = true) →
    (∀ c cs2, rest = c :: cs2 → isNameChar c = false) →
    takeName (name ++ rest) = (name, rest) := by
  intro name
  induction name with
  | nil =>
      intro rest _ h2
      cases rest with
      | nil => simp [takeName]
      | cons c cs2 => simp [takeName, h2 c cs2 rfl]
  | cons c name2 ih =>
      intro rest h1 h2
      have hc : isNameChar c = true := h1 c (by simp)
      have := ih rest (fun d hd => h1 d (by simp [hd])) h2
      simp [takeName, hc, this]

theorem splitAtBrace_eq_of : ∀ (d rest : List Char), (∀ c ∈ d, c ≠ '}') →
    splitAtBrace (d ++ '}' :: rest) = some (d, rest) := by
  intro d
  induction d with
  | nil => intro rest _; simp [splitAtBrace]
  | cons c d2 ih =>
      intro rest h
      have hc : c ≠ '}' := h c (by simp)
      simp [splitAtBrace, hc, ih rest (fun e he => h e (by simp [he]))]

theorem splitAtBrace_length : ∀ (cs a b : List Char),
    splitAtBrace cs = some (a, b) → b.length < cs.length := by
  intro cs
  induction cs with
  | nil => intro a b h; simp [splitAtBrace] at h
  | cons c rest ih =>
      intro a b h
      by_cases hc : c = '}'
      · simp [splitAtBrace, hc] at h
        simp [← h.2]
      · simp only [splitAtBrace, if_neg hc] at h
        cases hr : splitAtBrace rest with
        | none => rw [hr] at h; simp at h
        | some p =>
            rw [hr] at h
            simp at h
            have hlt := ih p.1 p.2 (by rw [hr])
            have hb : b = p.2 := by
              obtain ⟨p1, p2⟩ := p
              simp at hlt h
              exact h.2.symm
            subst hb
            simp
            omega

theorem parseFormAfter_length : ∀ (name r1 n2 : List Char) (f : VarForm) (r : List Char),
    parseFormAfter name r1 = some (n2, f, r) → r.length < r1.length := by
  intro name r1 n2 f r h
  cases r1 with
  | nil => simp [parseFormAfter] at h
  | cons c r2 =>
      by_cases hc : c = '}'
      · simp [parseFormAfter, hc] at h
        simp [← h.2.2]
      · by_cases hcol : c = ':'
        · simp only [parseFormAfter, if_neg hc, if_pos hcol] at h
          cases r2 with
          | nil => simp at h
          | cons c2 r3 =>
              by_cases hdash : c2 = '-'
              · simp only [if_pos hdash] at h
                cases hs : splitAtBrace r3 with
                | none => rw [hs] at h; simp at h
                | some p =>
                    rw [hs] at h
                    simp at h
                    have := splitAtBrace_length r3 p.1 p.2 (by rw [hs])
                    have hr : r = p.2 := h.2.2.symm
                    subst hr
                    simp
                    omega
              · by_cases hq : c2 = '?'
                · simp only [if_neg hdash, if_pos hq] at h
                  cases hs : splitAtBrace r3 with
                  | none => rw [hs] at h; simp at h
                  | some p =>
                      rw [hs] at h
                      simp at h
                      have := splitAtBrace_length r3 p.1 p.2 (by rw [hs])
                      have hr : r = p.2 := h.2.2.symm
                      subst hr
                      simp
                      omega
                · simp [if_neg hdash, if_neg hq] at h
        · simp [parseFormAfter, hc, hcol] at h

theorem parsePlaceholder_length : ∀ (cs n2 : List Char) (f : VarForm) (r : List Char),
    parsePlaceholder cs = some (n2, f, r) → r.length < cs.length := by
  intro cs n2 f r h
  unfold parsePlaceholder at h
  cases hn : takeName cs with
  | mk name r1 =>
      rw [hn] at h
      cases name with
      | nil => simp at h
      | cons c name2 =>
          simp at h
          have hlen := parseFormAfter_length _ _ _ _ _ h
          have hparts := takeName_parts cs
          rw [hn] at hparts
          have : (c :: name2).length + r1.length = cs.length := by
            rw [← hparts]; simp; omega
          simp at this
          omega

/-- Scanner fuel irrelevance: any fuel exceeding the character count gives
the same result. -/
theorem interpScan_fuel (env : String → Option String) (strict : Bool) :
    ∀ n : Nat, ∀ (m : Nat) (cs : List Char), cs.length < n → cs.length < m →
      interpScan env strict n cs = interpScan env strict m cs := by
  intro n
  induction n with
  | zero => intro m cs h1 _; omega
  | succ n ih =>
      intro m cs h1 h2
      cases m with
      | zero => omega
      | succ m2 =>
          cases cs with
          | nil => simp [interpScan]
          | cons c rest =>
              have hrn : rest.length < n := by simp at h1; omega
              have hrm : rest.length < m2 := by simp at h2; omega
              by_cases hc : c = '$'
              · subst hc
                cases rest with
                | nil =>
                    simp only [interpScan]
                    rw [ih m2 [] (by omega) (by omega)]
                | cons c2 cs2 =>
                    by_cases h2c : c2 = '{'
                    · subst h2c
                      cases hp : parsePlaceholder cs2 with
                      | none =>
                          simp only [interpScan, hp, if_pos rfl]
                          rw [ih m2 ('{' :: cs2) hrn hrm]
                      | some triple =>
                          obtain ⟨name, form, rest2⟩ := triple
                          have hl2 : rest2.length < cs2.length :=
                            parsePlaceholder_length cs2 name form rest2 hp
                          have hn2 : rest2.length < n := by simp at hrn; omega
                          have hm2 : rest2.length < m2 := by simp at hrm; omega
                          cases form with
                          | plain =>
                              cases he : env (String.mk name) with
                              | some v => simp [interpScan, hp, he, ih m2 rest2 hn2 hm2]
                              | none =>
                                  cases strict with
                                  | true => simp [interpScan, hp, he]
                                  | false => simp [interpScan, hp, he, ih m2 rest2 hn2 hm2]
                          | dflt d => simp [interpScan, hp, ih m2 rest2 hn2 hm2]
                          | req msg =>
                              cases he : env (String.mk name) with
                              | some v => simp [interpScan, hp, he, ih m2 rest2 hn2 hm2]
                              | none => simp [interpScan, hp, he]
                    · simp only [interpScan, if_pos rfl, if_neg h2c]
                      rw [ih m2 (c2 :: cs2) hrn hrm]
              · simp only [interpScan, if_neg hc]
                rw [ih m2 rest hrn hrm]

/-- Any sufficient fuel computes `interpolateChars`. -/
theorem interpScan_eq_interpolateChars (env : String → Option String) (strict : Bool)
    (n : Nat) (cs : List Char) (h : cs.length < n) :
    interpScan env strict n cs = interpolateChars env strict cs :=
  interpScan_fuel env strict n (cs.length + 1) cs h (by omega)

-- =============================================================================
-- Directive stripping produces directive-free values
-- =============================================================================

theorem getDirective_values (fs : JsonFields) (st : ArrayMergeStrategy) (vs : JsonList)
    (h : getDirective fs = some (st, vs)) :
    lookupKey fs "values" = some (JsonValue.arr vs) := by
  unfold getDirective at h
  split at h
  · cases h; assumption
  · cases h; assumption
  · cases h

theorem containsDir_lookupKey (fs : JsonFields) (k : String) (v : JsonValue)
    (hfree : containsDirFields fs = false) (h : lookupKey fs k = some v) :
    containsDir v = false := by
  match fs with
  | JsonFields.nil => simp [lookupKey] at h
  | JsonFields.cons k0 w rest =>
      simp [containsDirFields] at hfree
      by_cases hk : k0 = k
      · simp [lookupKey, hk] at h
        rw [← h]
        exact hfree.1
      · simp [lookupKey, hk] at h
        exact containsDir_lookupKey rest k v hfree.2 h

mutual

theorem stripValue_free (v : JsonValue) : containsDir (stripValue v) = false := by
  match v with
  | JsonValue.str s => simp [stripValue, containsDir]
  | JsonValue.num n => simp [stripValue, containsDir]
  | JsonValue.bool b => simp [stripValue, containsDir]
  | JsonValue.null => simp [stripValue, containsDir]
  | JsonValue.arr xs => simp [stripValue, containsDir, stripList_free xs]
  | JsonValue.obj fields =>
      cases hd : getDirective (stripFields fields) with
      | some p =>
          obtain ⟨st, vs⟩ := p
          have hv := getDirective_values _ _ _ hd
          have hfree := stripFields_free fields
          have := containsDir_lookupKey _ _ _ hfree hv
          simp [containsDir] at this
          simp [stripValue, hd, containsDir, this]
      | none =>
          simp [stripValue, hd, containsDir, stripFields_free fields]

theorem stripList_free (xs : JsonList) : containsDirList (stripList xs) = false := by
  match xs with
  | JsonList.nil => simp [stripList, containsDirList]
  | JsonList.cons v rest =>
      simp [stripList, containsDirList, stripValue_free v, stripList_free rest]

theorem stripFields_free (fs : JsonFields) : containsDirFields (stripFields fs) = false := by
  match fs with
  | JsonFields.nil => simp [stripFields, containsDirFields]
  | JsonFields.cons k v rest =>
      simp [stripFields, containsDirFields, stripValue_free v, stripFields_free rest]

end

-- =============================================================================
-- Dollar-free contents: interpolation is the identity on them
-- =============================================================================

theorem noDollar_lookupKey (fs : JsonFields) (k : String) (v : JsonValue)
    (hfree : noDollarFields fs = true) (h : lookupKey fs k = some v) :
    noDollar v = true := by
  match fs with
  | JsonFields.nil => simp [lookupKey] at h
  | JsonFields.cons k0 w rest =>
      simp [noDollarFields] at hfree
      by_cases hk : k0 = k
      · simp [lookupKey, hk] at h
        rw [← h]
        exact hfree.1
      · simp [lookupKey, hk] at h
        exact noDollar_lookupKey rest k v hfree.2 h

theorem noDollar_setKey (fs : JsonFields) (k : String) (v : JsonValue)
    (hf : noDollarFields fs = true) (hv : noDollar v = true) :
    noDollarFields (setKey fs k v) = true := by
  match fs with
  | JsonFields.nil => simp [setKey, noDollarFields, hv]
  | JsonFields.cons k0 w rest =>
      simp [noDollarFields] at hf
      by_cases hk : k0 = k
      · simp [setKey, hk, noDollarFields, hv, hf.2]
      · simp [setKey, hk, noDollarFields, hf.1, noDollar_setKey rest k v hf.2 hv]

theorem noDollar_jappend (xs ys : JsonList)
    (hx : noDollarList xs = true) (hy : noDollarList ys = true) :
    noDollarList (jappend xs ys) = true := by
  match xs with
  | JsonList.nil => simp [jappend, hy]
  | JsonList.cons v rest =>
      simp [noDollarList] at hx
      simp [jappend, noDollarList, hx.1, noDollar_jappend rest ys hx.2 hy]

theorem noDollar_baseSeqOf (b : Option JsonValue) (hb : noDollarOpt b = true) :
    noDollarList (baseSeqOf b) = true := by
  match b with
  | none => simp [baseSeqOf, noDollarList]
  | some (JsonValue.arr ys) => simpa [noDollarOpt, noDollar] using hb
  | some (JsonValue.str s) => simp [baseSeqOf, noDollarList]
  | some (JsonValue.num n) => simp [baseSeqOf, noDollarList]
  | some (JsonValue.bool b2) => simp [baseSeqOf, noDollarList]
  | some JsonValue.null => simp [baseSeqOf, noDollarList]
  | some (JsonValue.obj fields) => simp [baseSeqOf, noDollarList]

mutual

theorem noDollar_mergeValue (ctx : ArrayMergeStrategy) (b : Option JsonValue)
    (over : JsonValue) (hb : noDollarOpt b = true) (ho : noDollar over = true) :
    noDollar (mergeValue ctx b over) = true := by
  match over with
  | JsonValue.str s => simpa [mergeValue] using ho
  | JsonValue.num n => simp [mergeValue, noDollar]
  | JsonValue.bool b2 => simp [mergeValue, noDollar]
  | JsonValue.null => simp [mergeValue, noDollar]
  | JsonValue.arr xs =>
      match b with
      | some (JsonValue.arr ys) =>
          have hys : noDollarList ys := by simpa [noDollarOpt, noDollar] using hb
          have hxs : noDollarList xs := by simpa [noDollar] using ho
          cases ctx with
          | replace => simpa [mergeValue, noDollar] using ho
          | append => simp [mergeValue, noDollar, noDollar_jappend ys xs hys hxs]
          | prepend => simp [mergeValue, noDollar, noDollar_jappend xs ys hxs hys]
      | none => simpa [mergeValue] using ho
      | some (JsonValue.str s) => simpa [mergeValue] using ho
      | some (JsonValue.num n) => simpa [mergeValue] using ho
      | some (JsonValue.bool b2) => simpa [mergeValue] using ho
      | some JsonValue.null => simpa [mergeValue] using ho
      | some (JsonValue.obj bf) => simpa [mergeValue] using ho
  | JsonValue.obj ofields =>
      cases hd : getDirective ofields with
      | some p =>
          obtain ⟨st, vs⟩ := p
          have hvs : noDollarList vs = true := by
            have hv := getDirective_values _ _ _ hd
            have := noDollar_lookupKey _ _ _ (by simpa [noDollar] using ho) hv
            simpa [noDollar] using this
          have hbs := noDollar_baseSeqOf b hb
          cases st with
          | replace => simp [mergeValue, hd, noDollar, noDollar_jappend _ _ hbs hvs]
          | append => simp [mergeValue, hd, noDollar, noDollar_jappend _ _ hbs hvs]
          | prepend => simp [mergeValue, hd, noDollar, noDollar_jappend _ _ hvs hbs]
      | none =>
          match b with
          | some (JsonValue.obj bfields) =>
              have hbf : noDollarFields bfields := by simpa [noDollarOpt, noDollar] using hb
              have hof : noDollarFields ofields := by simpa [noDollar] using ho
              simp [mergeValue, hd, noDollar,
                noDollar_mergeFields ctx bfields ofields hbf hof]
          | none => simpa [mergeValue, hd] using ho
          | some (JsonValue.str s) => simpa [mergeValue, hd] using ho
          | some (JsonValue.num n) => simpa [mergeValue, hd] using ho
          | some (JsonValue.bool b2) => simpa [mergeValue, hd] using ho
          | some JsonValue.null => simpa [mergeValue, hd] using ho
          | some (JsonValue.arr ys) => simpa [mergeValue, hd] using ho

theorem noDollar_mergeFields (ctx : ArrayMergeStrategy) (bfs ofs : JsonFields)
    (hb : noDollarFields bfs = true) (ho : noDollarFields ofs = true) :
    noDollarFields (mergeFields ctx bfs ofs) = true := by
  match ofs with
  | JsonFields.nil => simpa [mergeFields] using hb
  | JsonFields.cons k v rest =>
      simp [noDollarFields] at ho
      have hlv : noDollarOpt (lookupKey bfs k) = true := by
        cases hl : lookupKey bfs k with
        | none => simp [noDollarOpt]
        | some w => simpa [noDollarOpt] using noDollar_lookupKey bfs k w hb hl
      have hmv := noDollar_mergeValue ctx (lookupKey bfs k) v hlv ho.1
      have hset := noDollar_setKey bfs k _ hb hmv
      simpa [mergeFields] using noDollar_mergeFields ctx _ rest hset ho.2

end

mutual

theorem noDollar_stripValue (v : JsonValue) (h : noDollar v = true) :
    noDollar (stripValue v) = true := by
  match v with
  | JsonValue.str s => simpa [stripValue] using h
  | JsonValue.num n => simp [stripValue, noDollar]
  | JsonValue.bool b => simp [stripValue, noDollar]
  | JsonValue.null => simp [stripValue, noDollar]
  | JsonValue.arr xs =>
      simp [stripValue, noDollar, noDollar_stripList xs (by simpa [noDollar] using h)]
  | JsonValue.obj fields =>
      have hf := noDollar_stripFields fields (by simpa [noDollar] using h)
      cases hd : getDirective (stripFields fields) with
      | some p =>
          obtain ⟨st, vs⟩ := p
          have hv := getDirective_values _ _ _ hd
          have := noDollar_lookupKey _ _ _ hf hv
          simp [noDollar] at this
          simp [stripValue, hd, noDollar, this]
      | none => simp [stripValue, hd, noDollar, hf]

theorem noDollar_stripList (xs : JsonList) (h : noDollarList xs = true) :
    noDollarList (stripList xs) = true := by
  match xs with
  | JsonList.nil => simp [stripList, noDollarList]
  | JsonList.cons v rest =>
      simp [noDollarList] at h
      simp [stripList, noDollarList, noDollar_stripValue v h.1, noDollar_stripList rest h.2]

theorem noDollar_stripFields (fs : JsonFields) (h : noDollarFields fs = true) :
    noDollarFields (stripFields fs) = true := by
  match fs with
  | JsonFields.nil => simp [stripFields, noDollarFields]
  | JsonFields.cons k v rest =>
      simp [noDollarFields] at h
      simp [stripFields, noDollarFields, noDollar_stripValue v h.1, noDollar_stripFields rest h.2]

end

theorem interpScan_ok_of_no_dollar (env : String → Option String) (strict : Bool) :
    ∀ (n : Nat) (cs : List Char), (∀ c ∈ cs, c ≠ '$') →
      interpScan env strict n cs = Except.ok cs := by
  intro n
  induction n with
  | zero => intro cs _; simp [interpScan]
  | succ n ih =>
      intro cs h
      cases cs with
      | nil => simp [interpScan]
      | cons c rest =>
          have hc : c ≠ '$' := h c (by simp)
          have hr := ih rest (fun d hd => h d (by simp [hd]))
          simp [interpScan, hc, hr]

theorem interpolateString_of_no_dollar (env : String → Option String) (strict : Bool)
    (s : String) (h : s.data.all (fun c => c != '$') = true) :
    interpolateString env strict s = Except.ok s := by
  obtain ⟨cs⟩ := s
  have hall : ∀ c ∈ cs, c ≠ '$' := by
    intro c hc
    have := List.all_eq_true.mp h c hc
    simpa using this
  have hs := interpScan_ok_of_no_dollar env strict (cs.length + 1) cs hall
  simp [interpolateString, interpolateChars, String.length, hs]

mutual

theorem interpValue_of_noDollar (env : String → Option String) (strict : Bool)
    (v : JsonValue) (h : noDollar v = true) :
    interpValue env strict v = Except.ok v := by
  match v with
  | JsonValue.str s =>
      simp [interpValue, interpolateString_of_no_dollar env strict s (by simpa [noDollar] using h)]
  | JsonValue.num n => simp [interpValue]
  | JsonValue.bool b => simp [interpValue]
  | JsonValue.null => simp [interpValue]
  | JsonValue.arr xs =>
      simp [interpValue,
        interpList_of_noDollar env strict xs (by simpa [noDollar] using h)]
  | JsonValue.obj fields =>
      simp [interpValue,
        interpFields_of_noDollar env strict fields (by simpa [noDollar] using h)]

theorem interpList_of_noDollar (env : String → Option String) (strict : Bool)
    (xs : JsonList) (h : noDollarList xs = true) :
    interpList env strict xs = Except.ok xs := by
  match xs with
  | JsonList.nil => simp [interpList]
  | JsonList.cons v rest =>
      simp [noDollarList] at h
      simp [interpList, interpValue_of_noDollar env strict v h.1,
        interpList_of_noDollar env strict rest h.2, Bind.bind, Except.bind]

theorem interpFields_of_noDollar (env : String → Option String) (strict : Bool)
    (fs : JsonFields) (h : noDollarFields fs = true) :
    interpFields env strict fs = Except.ok fs := by
  match fs with
  | JsonFields.nil => simp [interpFields]
  | JsonFields.cons k v rest =>
      simp [noDollarFields] at h
      simp [interpFields, interpValue_of_noDollar env strict v h.1,
        interpFields_of_noDollar env strict rest h.2, Bind.bind, Except.bind]

end

-- =============================================================================
-- Normalizer plumbing lemmas
-- =============================================================================

theorem lookupAssoc_mem {α : Type} (l : List (String × α)) (k : String) (v : α)
    (h : lookupAssoc l k = some v) : (k, v) ∈ l := by
  induction l with
  | nil => simp [lookupAssoc] at h
  | cons p rest ih =>
      obtain ⟨k0, v0⟩ := p
      by_cases hk : k0 = k
      · subst hk
        simp [lookupAssoc] at h
        simp [h]
      · simp [lookupAssoc, hk] at h
        simp [ih h]

theorem mapExcept_ok_mem {α β : Type} (f : α → Except String β) :
    ∀ (l : List α) (ys : List β), mapExcept f l = Except.ok ys →
      ∀ y ∈ ys, ∃ x ∈ l, f x = Except.ok y := by
  intro l
  induction l with
  | nil =>
      intro ys h y hy
      simp [mapExcept] at h
      subst h
      simp at hy
  | cons x rest ih =>
      intro ys h y hy
      cases hf : f x with
      | error e => simp [mapExcept, hf, Bind.bind, Except.bind] at h
      | ok y0 =>
          cases ht : mapExcept f rest with
          | error e => simp [mapExcept, hf, ht, Bind.bind, Except.bind] at h
          | ok t0 =>
              simp [mapExcept, hf, ht, Bind.bind, Except.bind] at h
              subst h
              simp at hy
              cases hy with
              | inl hy0 =>
                  subst hy0
                  exact ⟨x, by simp, hf⟩
              | inr hyt =>
                  obtain ⟨x2, hx2, hfx2⟩ := ih t0 ht y hyt
                  exact ⟨x2, by simp [hx2], hfx2⟩

/-- Per-file directive-freeness: override and merge modes strip directives
before interpolation, so with dollar-free inputs (interpolation then a
no-op) the result is directive-free; inherit mode copies the base content,
so it additionally needs the base content itself directive-free. -/
theorem computeFileContent_free (env : String → Option String) (fn : String)
    (fs : FileSpec) (ov : Option RepoFileConfig) (fc : FileContent)
    (hbfree : containsDir (JsonValue.obj (fs.content.getD JsonFields.nil)) = false)
    (hbnd : noDollarFields (fs.content.getD JsonFields.nil) = true)
    (hond : ∀ o, ov = some o → noDollarFields (o.content.getD JsonFields.nil) = true)
    (h : computeFileContent env fn fs ov = Except.ok fc) :
    containsDir fc.content = false := by
  have hbnd2 : noDollar (JsonValue.obj (fs.content.getD JsonFields.nil)) = true := by
    simpa [noDollar] using hbnd
  cases ov with
  | none =>
      rw [computeFileContent] at h
      simp only [interpValue_of_noDollar env true _ hbnd2] at h
      simp [Except.map] at h
      rw [← h]
      exact hbfree
  | some o =>
      have hoc : noDollar (JsonValue.obj (o.content.getD JsonFields.nil)) = true := by
        simpa [noDollar] using hond o rfl
      by_cases hov : o.override.getD false = true
      · rw [computeFileContent] at h
        simp only [hov, if_true] at h
        have hnd := noDollar_stripValue _ hoc
        simp only [interpValue_of_noDollar env true _ hnd] at h
        simp [Except.map] at h
        rw [← h]
        exact stripValue_free _
      · cases hc : o.content with
        | none =>
            rw [computeFileContent] at h
            simp only [hov, hc, Bool.false_eq_true, if_false] at h
            simp only [interpValue_of_noDollar env true _ hbnd2] at h
            simp [Except.map] at h
            rw [← h]
            exact hbfree
        | some c =>
            rw [computeFileContent] at h
            simp only [hov, hc, Bool.false_eq_true, if_false] at h
            have hcnd : noDollarFields c = true := by
              have := hond o rfl
              rw [hc] at this
              simpa using this
            have hmnd : noDollar (JsonValue.obj (deepMerge (fs.content.getD JsonFields.nil) c
                (createMergeContext (fs.mergeStrategy.getD ArrayMergeStrategy.replace)))) = true := by
              simp [noDollar, deepMerge]
              exact noDollar_mergeFields _ _ _ hbnd hcnd
            have hnd := noDollar_stripValue _ hmnd
            simp only [interpValue_of_noDollar env true _ hnd] at h
            simp [Except.map] at h
            rw [← h]
            exact stripValue_free _

theorem buildFiles_free (env : String → Option String)
    (rf : Option (List (String × RepoFileSetting))) :
    ∀ (specs : List (String × FileSpec)) (fcs : List FileContent),
      (∀ fn fs, (fn, fs) ∈ specs →
        containsDir (JsonValue.obj (fs.content.getD JsonFields.nil)) = false ∧
        noDollarFields (fs.content.getD JsonFields.nil) = true) →
      (∀ m fn st, rf = some m → lookupAssoc m fn = some st → settingNoDollar st = true) →
      buildFiles env rf specs = Except.ok fcs →
      ∀ fc ∈ fcs, containsDir fc.content = false := by
  intro specs
  induction specs with
  | nil =>
      intro fcs _ _ h fc hfc
      simp [buildFiles] at h
      subst h
      simp at hfc
  | cons p rest ih =>
      obtain ⟨fn, fs⟩ := p
      intro fcs hspecs hrf h fc hfc
      by_cases hex : settingExcluded (rf.bind (fun m => lookupAssoc m fn)) = true
      · simp only [buildFiles, hex, if_true] at h
        exact ih fcs (fun fn2 fs2 hm => hspecs fn2 fs2 (by simp [hm])) hrf h fc hfc
      · simp only [buildFiles, hex, if_false] at h
        cases hcf : computeFileContent env fn fs
            (settingConfig (rf.bind (fun m => lookupAssoc m fn))) with
        | error e => simp [hcf, Bind.bind, Except.bind] at h
        | ok fc0 =>
            cases hbt : buildFiles env rf rest with
            | error e => simp [hcf, hbt, Bind.bind, Except.bind] at h
            | ok t =>
                simp [hcf, hbt, Bind.bind, Except.bind] at h
                subst h
                simp at hfc
                cases hfc with
                | inl h0 =>
                    subst h0
                    have hself := hspecs fn fs (by simp)
                    refine computeFileContent_free env fn fs _ fc hself.1 hself.2 ?_ hcf
                    intro o ho
                    cases hrfv : rf with
                    | none => rw [hrfv] at ho; simp [settingConfig] at ho
                    | some m =>
                        rw [hrfv] at ho
                        simp only [Option.some_bind] at ho
                        cases hla : lookupAssoc m fn with
                        | none => rw [hla] at ho; simp [settingConfig] at ho
                        | some st =>
                            rw [hla] at ho
                            have := hrf m fn st hrfv hla
                            cases st with
                            | exclude => simp [settingConfig] at ho
                            | cfg o2 =>
                                simp [settingConfig] at ho
                                subst ho
                                simpa [settingNoDollar] using this
                | inr ht =>
                    exact ih t (fun fn2 fs2 hm => hspecs fn2 fs2 (by simp [hm])) hrf hbt fc ht

theorem normalizeConfig_free_aux :
    ∀ (env : String → Option String) (raw : RawConfig) (cfg : Config),
      docBasesFree raw = true → docNoDollar raw = true →
      normalizeConfig env raw = Except.ok cfg →
      ∀ rc ∈ cfg.repos, ∀ fc ∈ rc.files, containsDir fc.content = false := by
  intro env raw cfg hfree hnd hnorm rc hrc fc hfc
  cases hm : mapExcept (expandRepo env raw.files) raw.repos with
  | error e =>
      rw [normalizeConfig] at hnorm
      simp [hm, Bind.bind, Except.bind] at hnorm
  | ok expanded =>
      rw [normalizeConfig] at hnorm
      simp [hm, Bind.bind, Except.bind] at hnorm
      rw [← hnorm] at hrc
      simp at hrc
      obtain ⟨l, hl, hrcl⟩ := hrc
      obtain ⟨entry, hentry, hexp⟩ := mapExcept_ok_mem _ raw.repos expanded hm l hl
      rw [expandRepo] at hexp
      obtain ⟨url, _hurl, hone⟩ :=
        mapExcept_ok_mem _ (gitUrlsOf entry.git) l hexp rc hrcl
      cases hb : buildFiles env entry.files raw.files with
      | error e => simp [hb, Bind.bind, Except.bind] at hone
      | ok fls =>
          simp [hb, Bind.bind, Except.bind] at hone
          have hfls : rc.files = fls := by rw [← hone]
          rw [hfls] at hfc
          refine buildFiles_free env entry.files raw.files fls ?_ ?_ hb fc hfc
          · intro fn fs hmem
            have h1 := List.all_eq_true.mp hfree (fn, fs) hmem
            have hnd2 := hnd
            simp [docNoDollar] at hnd2
            have h2 := hnd2.1 fn fs hmem
            simp at h1
            exact ⟨h1, h2⟩
          · intro m fn st hm2 hla
            have hrepo : repoNoDollar entry = true := by
              simp [docNoDollar] at hnd
              exact hnd.2 entry hentry
            rw [repoNoDollar, hm2] at hrepo
            exact List.all_eq_true.mp hrepo (fn, st) (lookupAssoc_mem m fn st hla)

theorem jappend_nil (vs : JsonList) : jappend vs JsonList.nil = vs := by
  match vs with
  | JsonList.nil => simp [jappend]
  | JsonList.cons v rest => simp [jappend, jappend_nil rest]

-- =============================================================================
-- Claim theorems
-- =============================================================================

/-- C1 (amended): for every document whose file base contents are
directive-free and whose content strings are dollar-free (so that strict
interpolation rewrites nothing), every FileContent.content in the Config
produced by normalizeConfig is directive-free.  The override and merge
paths strip directives unconditionally before interpolation; the inherit
path copies the base content without stripping, which is why the base
contents must already be directive-free. -/
theorem normalizeConfig_directive_free :
    ∀ (env : String → Option String) (raw : RawConfig) (cfg : Config),
      docBasesFree raw = true → docNoDollar raw = true →
      normalizeConfig env raw = Except.ok cfg →
      ∀ rc ∈ cfg.repos, ∀ fc ∈ rc.files, containsDir fc.content = false :=
  normalizeConfig_free_aux

/-- C1 counterexample: `inheritLeakDoc` passes validation, its base content
for `a.json` holds a MergeDirective, its repo gives no override, and the
normalized output content still contains the directive shape — the inherit
path does not strip. -/
theorem normalizeConfig_inherit_leak_cex :
    validateRawConfig inheritLeakDoc = Except.ok () ∧
    normalizeConfig noEnv inheritLeakDoc = Except.ok inheritLeakConfig ∧
    containsDir (JsonValue.obj (JsonFields.cons "x" directiveExample JsonFields.nil)) = true :=
  ⟨by decide, by decide, by decide⟩

/-- C1 witness: the amended theorem applied to `plainDoc`. -/
theorem normalizeConfig_directive_free_witness :
    containsDir (FileContent.mk "config.json"
      (JsonValue.obj (JsonFields.cons "key" (JsonValue.str "value") JsonFields.nil))
      none).content = false :=
  normalizeConfig_directive_free noEnv plainDoc plainDocConfig (by decide) (by decide)
    (by decide)
    (RepoConfig.mk "u"
      [FileContent.mk "config.json"
        (JsonValue.obj (JsonFields.cons "key" (JsonValue.str "value") JsonFields.nil)) none])
    (by decide)
    (FileContent.mk "config.json"
      (JsonValue.obj (JsonFields.cons "key" (JsonValue.str "value") JsonFields.nil)) none)
    (by decide)

/-- C2: deepMerge resolves array values by the strategy in effect.  A
MergeDirective overlay resolves by its own strategy whatever the ambient
strategy is — append concatenates the base sequence (empty when the key is
absent) with the values, prepend concatenates the values with the base
sequence; a plain overlay sequence against a base sequence follows the
ambient strategy — replace discards the base, append/prepend concatenate
with the plain sequence as the values. -/
theorem deepMerge_array_strategy :
    ∀ (ctx : ArrayMergeStrategy) (bfs ofs : JsonFields) (k : String),
      (keysOf ofs).Nodup →
      ((∀ dfs vs ys, lookupKey ofs k = some (JsonValue.obj dfs) →
          getDirective dfs = some (ArrayMergeStrategy.append, vs) →
          lookupKey bfs k = some (JsonValue.arr ys) →
          lookupKey (deepMerge bfs ofs ctx) k = some (JsonValue.arr (jappend ys vs))) ∧
       (∀ dfs vs, lookupKey ofs k = some (JsonValue.obj dfs) →
          getDirective dfs = some (ArrayMergeStrategy.append, vs) →
          lookupKey bfs k = none →
          lookupKey (deepMerge bfs ofs ctx) k = some (JsonValue.arr vs)) ∧
       (∀ dfs vs ys, lookupKey ofs k = some (JsonValue.obj dfs) →
          getDirective dfs = some (ArrayMergeStrategy.prepend, vs) →
          lookupKey bfs k = some (JsonValue.arr ys) →
          lookupKey (deepMerge bfs ofs ctx) k = some (JsonValue.arr (jappend vs ys))) ∧
       (∀ dfs vs, lookupKey ofs k = some (JsonValue.obj dfs) →
          getDirective dfs = some (ArrayMergeStrategy.prepend, vs) →
          lookupKey bfs k = none →
          lookupKey (deepMerge bfs ofs ctx) k = some (JsonValue.arr vs)) ∧
       (∀ xs ys, lookupKey ofs k = some (JsonValue.arr xs) →
          lookupKey bfs k = some (JsonValue.arr ys) →
          lookupKey (deepMerge bfs ofs ctx) k =
            some (match ctx with
                  | ArrayMergeStrategy.replace => JsonValue.arr xs
                  | ArrayMergeStrategy.append => JsonValue.arr (jappend ys xs)
                  | ArrayMergeStrategy.prepend => JsonValue.arr (jappend xs ys)))) := by
  intro ctx bfs ofs k hnd
  refine ⟨?_, ?_, ?_, ?_, ?_⟩
  · intro dfs vs ys ho hd hb
    rw [deepMerge, lookupKey_mergeFields ctx ofs bfs hnd k, ho]
    simp [mergeValue, hd, hb, baseSeqOf]
  · intro dfs vs ho hd hb
    rw [deepMerge, lookupKey_mergeFields ctx ofs bfs hnd k, ho]
    simp [mergeValue, hd, hb, baseSeqOf, jappend]
  · intro dfs vs ys ho hd hb
    rw [deepMerge, lookupKey_mergeFields ctx ofs bfs hnd k, ho]
    simp [mergeValue, hd, hb, baseSeqOf]
  · intro dfs vs ho hd hb
    rw [deepMerge, lookupKey_mergeFields ctx ofs bfs hnd k, ho]
    simp [mergeValue, hd, hb, baseSeqOf, jappend_nil]
  · intro xs ys ho hb
    rw [deepMerge, lookupKey_mergeFields ctx ofs bfs hnd k, ho]
    cases ctx with
    | replace => simp [mergeValue, hb]
    | append => simp [mergeValue, hb]
    | prepend => simp [mergeValue, hb]

/-- C2 witness: an append directive against base `[1, 2]` yields
`[1, 2, 3]` under the replace ambient strategy. -/
theorem deepMerge_array_strategy_witness :
    lookupKey
      (deepMerge
        (JsonFields.cons "a"
          (JsonValue.arr (JsonList.cons (JsonValue.num 1)
            (JsonList.cons (JsonValue.num 2) JsonList.nil))) JsonFields.nil)
        (JsonFields.cons "a"
          (JsonValue.obj (JsonFields.cons "$arrayMerge" (JsonValue.str "append")
            (JsonFields.cons "values"
              (JsonValue.arr (JsonList.cons (JsonValue.num 3) JsonList.nil))
              JsonFields.nil)))
          JsonFields.nil)
        ArrayMergeStrategy.replace)
      "a"
    = some (JsonValue.arr (JsonList.cons (JsonValue.num 1)
        (JsonList.cons (JsonValue.num 2) (JsonList.cons (JsonValue.num 3) JsonList.nil)))) :=
  (deepMerge_array_strategy ArrayMergeStrategy.replace _ _ "a" (by decide)).1
    (JsonFields.cons "$arrayMerge" (JsonValue.str "append")
      (JsonFields.cons "values" (JsonValue.arr (JsonList.cons (JsonValue.num 3) JsonList.nil))
        JsonFields.nil))
    (JsonList.cons (JsonValue.num 3) JsonList.nil)
    (JsonList.cons (JsonValue.num 1) (JsonList.cons (JsonValue.num 2) JsonList.nil))
    (by decide) (by decide) (by decide)

theorem mergeValue_none_of_not_directive (ctx : ArrayMergeStrategy) (vo : JsonValue)
    (h : isDirectiveValue vo = false) : mergeValue ctx none vo = vo := by
  match vo with
  | JsonValue.str s => simp [mergeValue]
  | JsonValue.num n => simp [mergeValue]
  | JsonValue.bool b => simp [mergeValue]
  | JsonValue.null => simp [mergeValue]
  | JsonValue.arr xs => simp [mergeValue]
  | JsonValue.obj fields =>
      cases hd : getDirective fields with
      | some p => simp [isDirectiveValue, hd] at h
      | none => simp [mergeValue, hd]

/-- C7 (amended): for mappings with no array values at matching keys and no
MergeDirective shapes at overlay-only keys, the merged key set is the union
of the two key sets, keys only in the overlay keep the overlay's value, and
keys only in the base are preserved unchanged.  (A MergeDirective at an
overlay-only key instead resolves to its values sequence.) -/
theorem deepMerge_key_union :
    ∀ (ctx : ArrayMergeStrategy) (bfs ofs : JsonFields),
      (keysOf bfs).Nodup → (keysOf ofs).Nodup →
      (∀ k vb vo, lookupKey bfs k = some vb → lookupKey ofs k = some vo →
        isArrValue vb = false ∧ isArrValue vo = false) →
      (∀ k vo, lookupKey ofs k = some vo → lookupKey bfs k = none →
        isDirectiveValue vo = false) →
      ((∀ k, k ∈ keysOf (deepMerge bfs ofs ctx) ↔ k ∈ keysOf bfs ∨ k ∈ keysOf ofs) ∧
       (∀ k vo, lookupKey ofs k = some vo → lookupKey bfs k = none →
          lookupKey (deepMerge bfs ofs ctx) k = some vo) ∧
       (∀ k vb, lookupKey bfs k = some vb → lookupKey ofs k = none →
          lookupKey (deepMerge bfs ofs ctx) k = some vb)) := by
  intro ctx bfs ofs _hndb hndo _hnoarr hdir
  refine ⟨?_, ?_, ?_⟩
  · intro k
    rw [mem_keysOf_iff_lookupKey, mem_keysOf_iff_lookupKey, mem_keysOf_iff_lookupKey]
    rw [deepMerge, lookupKey_mergeFields ctx ofs bfs hndo k]
    cases ho : lookupKey ofs k with
    | some v => simp
    | none => simp
  · intro k vo ho hb
    rw [deepMerge, lookupKey_mergeFields ctx ofs bfs hndo k, ho, hb]
    simp [mergeValue_none_of_not_directive ctx vo (hdir k vo ho hb)]
  · intro k vb hb ho
    rw [deepMerge, lookupKey_mergeFields ctx ofs bfs hndo k, ho]
    simpa using hb

/-- C7 counterexample: a MergeDirective at an overlay-only key (base empty,
so there are no matching keys at all) resolves to its values sequence, so
the merged value differs from the overlay's value there. -/
theorem deepMerge_key_union_cex :
    lookupKey
      (deepMerge JsonFields.nil (JsonFields.cons "a" directiveExample JsonFields.nil)
        ArrayMergeStrategy.replace) "a"
      = some (JsonValue.arr (JsonList.cons (JsonValue.num 1) JsonList.nil)) ∧
    lookupKey (JsonFields.cons "a" directiveExample JsonFields.nil) "a" = some directiveExample ∧
    JsonValue.arr (JsonList.cons (JsonValue.num 1) JsonList.nil) ≠ directiveExample :=
  ⟨by decide, by decide, by decide⟩

/-- C7 witness: the amended theorem applied to two disjoint scalar
mappings. -/
theorem deepMerge_key_union_witness :
    lookupKey
      (deepMerge (JsonFields.cons "x" (JsonValue.str "v") JsonFields.nil)
        (JsonFields.cons "y" (JsonValue.str "w") JsonFields.nil)
        ArrayMergeStrategy.replace) "y"
      = some (JsonValue.str "w") :=
  (deepMerge_key_union ArrayMergeStrategy.replace
      (JsonFields.cons "x" (JsonValue.str "v") JsonFields.nil)
      (JsonFields.cons "y" (JsonValue.str "w") JsonFields.nil)
      (by decide) (by decide)
      (by intro k vb vo hb ho
          by_cases hk : k = "x"
          · subst hk; simp [lookupKey] at ho
          · have hx : "x" ≠ k := fun h2 => hk h2.symm
            simp [lookupKey, hx] at hb
      )
      (by intro k vo ho hb
          by_cases hk : k = "y"
          · subst hk
            simp [lookupKey] at ho
            rw [← ho]
            decide
          · have hy : "y" ≠ k := fun h2 => hk h2.symm
            simp [lookupKey, hy] at ho
      )).2.1
    "y" (JsonValue.str "w") (by decide) (by decide)

/-- C3 (amended): in merge mode (repo-level content given, no override
flag), normalizeConfig deep-merges base and repo content using as ambient
strategy the file's own mergeStrategy when specified and `replace`
otherwise; the document-level default mergeStrategy is never consulted (the
right-hand side below does not depend on it). -/
theorem normalizeConfig_merge_strategy :
    ∀ (env : String → Option String) (sDoc sFile : Option ArrayMergeStrategy)
      (fn gitUrl : String) (base c : JsonFields) (co1 co2 : Option Bool),
      normalizeConfig env
        (RawConfig.mk [(fn, FileSpec.mk (some base) sFile co1)]
          [RawRepoEntry.mk (some (GitField.single gitUrl))
            (some [(fn, RepoFileSetting.cfg (RepoFileConfig.mk none (some c) co2))])]
          sDoc)
      = Except.map
          (fun ic => Config.mk [RepoConfig.mk gitUrl [FileContent.mk fn ic (jsNullish co2 co1)]])
          (interpValue env true (stripValue (JsonValue.obj
            (deepMerge base c (sFile.getD ArrayMergeStrategy.replace))))) := by
  intro env sDoc sFile fn gitUrl base c co1 co2
  cases hi : interpValue env true (stripValue (JsonValue.obj
      (deepMerge base c (sFile.getD ArrayMergeStrategy.replace)))) with
  | error e =>
      simp [normalizeConfig, mapExcept, expandRepo, gitUrlsOf, buildFiles, lookupAssoc,
        settingExcluded, settingConfig, computeFileContent, createMergeContext, hi,
        Bind.bind, Except.bind, Except.map]
  | ok ic =>
      simp [normalizeConfig, mapExcept, expandRepo, gitUrlsOf, buildFiles, lookupAssoc,
        settingExcluded, settingConfig, computeFileContent, createMergeContext, hi,
        Bind.bind, Except.bind, Except.map]

/-- C3 counterexample: with document-level mergeStrategy `append`, a file
without its own strategy, base `items: ["a"]` and repo overlay
`items: ["b"]`, the code produces `items: ["b"]` (replace), not the
`items: ["a", "b"]` a document-level append default would dictate. -/
theorem normalizeConfig_merge_strategy_cex :
    normalizeConfig noEnv strategyCexDoc = Except.ok strategyCexActual ∧
    strategyCexActual ≠ strategyCexClaimed :=
  ⟨by decide, by decide⟩

theorem exceptMap_ok {α β : Type} (f : α → β) (x : Except String α) (y : β)
    (h : f <$> x = Except.ok y) : ∃ a, x = Except.ok a ∧ y = f a := by
  cases x with
  | error e => simp [Except.map] at h
  | ok a =>
      simp [Except.map] at h
      exact ⟨a, rfl, h.symm⟩

theorem computeFileContent_ok_parts (env : String → Option String) (fn : String)
    (fs : FileSpec) (ov : Option RepoFileConfig) (fc : FileContent)
    (h : computeFileContent env fn fs ov = Except.ok fc) :
    fc.fileName = fn ∧
    fc.createOnly = jsNullish (ov.bind (fun o => o.createOnly)) fs.createOnly := by
  unfold computeFileContent at h
  obtain ⟨ic, _hic, hfc⟩ := exceptMap_ok _ _ _ h
  rw [hfc]
  exact ⟨rfl, rfl⟩

/-- C4 (amended): for every (repo, fileName) pair included in the output,
FileContent.createOnly equals the repo-level override's createOnly when
present, else the file's base-level createOnly — which may itself be
absent: no `false` default is applied, so createOnly is `none` when neither
level specifies it. -/
theorem normalizeConfig_createOnly :
    (∀ (env : String → Option String) (fn : String) (fs : FileSpec)
       (ov : Option RepoFileConfig) (fc : FileContent),
       computeFileContent env fn fs ov = Except.ok fc →
       fc.createOnly = jsNullish (ov.bind (fun o => o.createOnly)) fs.createOnly) ∧
    (∀ (env : String → Option String) (rf : Option (List (String × RepoFileSetting)))
       (specs : List (String × FileSpec)) (fcs : List FileContent),
       buildFiles env rf specs = Except.ok fcs →
       ∀ fc ∈ fcs, ∃ fs, (fc.fileName, fs) ∈ specs ∧
         fc.createOnly = jsNullish
           ((settingConfig (rf.bind (fun m => lookupAssoc m fc.fileName))).bind
             (fun o => o.createOnly)) fs.createOnly) := by
  constructor
  · intro env fn fs ov fc h
    exact (computeFileContent_ok_parts env fn fs ov fc h).2
  · intro env rf specs
    induction specs with
    | nil =>
        intro fcs h fc hfc
        simp [buildFiles] at h
        subst h
        simp at hfc
    | cons p rest ih =>
        obtain ⟨fn, fs⟩ := p
        intro fcs h fc hfc
        by_cases hex : settingExcluded (rf.bind (fun m => lookupAssoc m fn)) = true
        · simp only [buildFiles, hex, if_true] at h
          obtain ⟨fs2, hmem, hco⟩ := ih fcs h fc hfc
          exact ⟨fs2, by simp [hmem], hco⟩
        · simp only [buildFiles, hex, if_false] at h
          cases hcf : computeFileContent env fn fs
              (settingConfig (rf.bind (fun m => lookupAssoc m fn))) with
          | error e => simp [hcf, Bind.bind, Except.bind] at h
          | ok fc0 =>
              cases hbt : buildFiles env rf rest with
              | error e => simp [hcf, hbt, Bind.bind, Except.bind] at h
              | ok t =>
                  simp [hcf, hbt, Bind.bind, Except.bind] at h
                  subst h
                  simp at hfc
                  cases hfc with
                  | inl h0 =>
                      subst h0
                      obtain ⟨hname, hco⟩ :=
                        computeFileContent_ok_parts env fn fs _ fc hcf
                      refine ⟨fs, by simp [hname], ?_⟩
                      rw [hname, hco]
                  | inr ht =>
                      obtain ⟨fs2, hmem, hco⟩ := ih t hbt fc ht
                      exact ⟨fs2, by simp [hmem], hco⟩

/-- C4 counterexample: in `plainDoc` neither the file spec nor any repo
override sets createOnly; the output's createOnly is absent (`none`), not
the concrete boolean `false` the claim requires. -/
theorem normalizeConfig_createOnly_cex :
    normalizeConfig noEnv plainDoc = Except.ok plainDocConfig ∧
    (FileContent.mk "config.json"
      (JsonValue.obj (JsonFields.cons "key" (JsonValue.str "value") JsonFields.nil))
      none).createOnly = none ∧
    (none : Option Bool) ≠ some false :=
  ⟨by decide, by decide, by decide⟩

/-- C4 witness: the repo-level createOnly wins over the file-level one. -/
theorem normalizeConfig_createOnly_witness :
    (FileContent.mk "config.json" (JsonValue.obj JsonFields.nil) (some true)).createOnly
      = jsNullish
          ((some (RepoFileConfig.mk none none (some true))).bind (fun o => o.createOnly))
          (some false) :=
  normalizeConfig_createOnly.1 noEnv "config.json"
    (FileSpec.mk (some JsonFields.nil) none (some false))
    (some (RepoFileConfig.mk none none (some true)))
    (FileContent.mk "config.json" (JsonValue.obj JsonFields.nil) (some true))
    (by decide)

theorem validateRepoEntry_ok_git (files : List (String × FileSpec)) (i : Nat)
    (r : RawRepoEntry) (h : validateRepoEntry files i r = Except.ok ()) :
    gitPresent r.git = true ∧ r.git ≠ some (GitField.multiple []) := by
  by_cases hg : gitPresent r.git = false
  · rw [validateRepoEntry] at h
    simp [hg] at h
  · constructor
    · simpa using hg
    · intro hgit
      rw [validateRepoEntry, hgit] at h
      simp [gitPresent] at h

theorem validateRepos_ok_mem (files : List (String × FileSpec)) :
    ∀ (l : List RawRepoEntry) (b : Nat), validateRepos files b l = Except.ok () →
      ∀ r ∈ l, ∃ i, validateRepoEntry files i r = Except.ok () := by
  intro l
  induction l with
  | nil => intro b _ r hr; simp at hr
  | cons r0 rest ih =>
      intro b h r hr
      cases hv : validateRepoEntry files b r0 with
      | error e => simp [validateRepos, hv, Bind.bind, Except.bind] at h
      | ok u =>
          obtain ⟨⟩ := u
          simp only [validateRepos, hv, Bind.bind, Except.bind] at h
          simp at hr
          cases hr with
          | inl h0 => exact ⟨b, by rw [h0]; exact hv⟩
          | inr h2 => exact ih (b + 1) h r h2

theorem validateRepos_error_at (files : List (String × FileSpec)) :
    ∀ (l : List RawRepoEntry) (b i : Nat) (r : RawRepoEntry) (e : String),
      l.get? i = some r →
      (∀ j rj, j < i → l.get? j = some rj →
        validateRepoEntry files (b + j) rj = Except.ok ()) →
      validateRepoEntry files (b + i) r = Except.error e →
      validateRepos files b l = Except.error e := by
  intro l
  induction l with
  | nil => intro b i r e hget; simp at hget
  | cons r0 rest ih =>
      intro b i r e hget hprev herr
      cases i with
      | zero =>
          simp at hget
          subst hget
          simp only [Nat.add_zero] at herr
          simp [validateRepos, herr, Bind.bind, Except.bind]
      | succ i2 =>
          have h0 : validateRepoEntry files (b + 0) r0 = Except.ok () :=
            hprev 0 r0 (by omega) (by simp)
          simp only [Nat.add_zero] at h0
          simp only [validateRepos, h0, Bind.bind, Except.bind]
          refine ih (b + 1) i2 r e (by simpa using hget) ?_ ?_
          · intro j rj hj hg
            have hp := hprev (j + 1) rj (by omega) (by simpa using hg)
            have harith : b + (j + 1) = b + 1 + j := by omega
            rw [harith] at hp
            exact hp
          · have harith : b + (i2 + 1) = b + 1 + i2 := by omega
            rw [harith] at herr
            exact herr

theorem validateRawConfig_ok_repos (raw : RawConfig)
    (h : validateRawConfig raw = Except.ok ()) :
    raw.repos ≠ [] ∧ validateRepos raw.files 0 raw.repos = Except.ok () := by
  rw [validateRawConfig] at h
  cases hv : validateFileNames raw.files with
  | error e => simp [hv, Bind.bind, Except.bind] at h
  | ok u =>
      obtain ⟨⟩ := u
      simp only [hv, Bind.bind, Except.bind] at h
      by_cases hemp : raw.repos.isEmpty
      · simp [hemp] at h
      · simp only [hemp, Bool.false_eq_true, if_false] at h
        constructor
        · intro hnil
          rw [hnil] at hemp
          simp at hemp
        · exact h

/-- C5: validation succeeds only if repos is non-empty and every repo entry
has a git field that, when an array, is non-empty; an empty repos sequence
fails validation, and a repo entry lacking git or carrying an empty git
array fails with an error tagged with that repo's (lowest offending)
index. -/
theorem validateRawConfig_repos_checks :
    (∀ raw : RawConfig, validateRawConfig raw = Except.ok () →
       raw.repos ≠ [] ∧ ∀ r ∈ raw.repos,
         gitPresent r.git = true ∧ r.git ≠ some (GitField.multiple [])) ∧
    (∀ raw : RawConfig, raw.repos = [] → validateRawConfig raw ≠ Except.ok ()) ∧
    (∀ (raw : RawConfig) (i : Nat) (r : RawRepoEntry),
       validateFileNames raw.files = Except.ok () →
       raw.repos.get? i = some r →
       (∀ j rj, j < i → raw.repos.get? j = some rj →
         validateRepoEntry raw.files j rj = Except.ok ()) →
       gitPresent r.git = false →
       validateRawConfig raw = Except.error
         ("Repo at index " ++ toString i ++ " missing required field: git")) ∧
    (∀ (raw : RawConfig) (i : Nat) (r : RawRepoEntry),
       validateFileNames raw.files = Except.ok () →
       raw.repos.get? i = some r →
       (∀ j rj, j < i → raw.repos.get? j = some rj →
         validateRepoEntry raw.files j rj = Except.ok ()) →
       r.git = some (GitField.multiple []) →
       validateRawConfig raw = Except.error
         ("Repo at index " ++ toString i ++ " has empty git array")) := by
  refine ⟨?_, ?_, ?_, ?_⟩
  · intro raw h
    obtain ⟨hne, hrep⟩ := validateRawConfig_ok_repos raw h
    refine ⟨hne, ?_⟩
    intro r hr
    obtain ⟨i, hi⟩ := validateRepos_ok_mem raw.files raw.repos 0 hrep r hr
    exact validateRepoEntry_ok_git raw.files i r hi
  · intro raw hrep hok
    exact absurd hrep (validateRawConfig_ok_repos raw hok).1
  · intro raw i r hfn hget hprev hg
    have hne : raw.repos ≠ [] := by
      intro hnil
      rw [hnil] at hget
      simp at hget
    have herr : validateRepoEntry raw.files (0 + i) r = Except.error
        ("Repo at index " ++ toString i ++ " missing required field: git") := by
      simp only [Nat.zero_add]
      rw [validateRepoEntry]
      simp [hg]
    have hrep := validateRepos_error_at raw.files raw.repos 0 i r _ hget
      (by intro j rj hj hgj; simpa using hprev j rj hj hgj) herr
    rw [validateRawConfig]
    simp only [hfn, Bind.bind, Except.bind]
    have hemp : raw.repos.isEmpty = false := by
      cases hl : raw.repos with
      | nil => exact absurd hl hne
      | cons a l => simp
    simp [hemp, hrep]
  · intro raw i r hfn hget hprev hg
    have hne : raw.repos ≠ [] := by
      intro hnil
      rw [hnil] at hget
      simp at hget
    have herr : validateRepoEntry raw.files (0 + i) r = Except.error
        ("Repo at index " ++ toString i ++ " has empty git array") := by
      simp only [Nat.zero_add]
      rw [validateRepoEntry, hg]
      simp [gitPresent]
    have hrep := validateRepos_error_at raw.files raw.repos 0 i r _ hget
      (by intro j rj hj hgj; simpa using hprev j rj hj hgj) herr
    rw [validateRawConfig]
    simp only [hfn, Bind.bind, Except.bind]
    have hemp : raw.repos.isEmpty = false := by
      cases hl : raw.repos with
      | nil => exact absurd hl hne
      | cons a l => simp
    simp [hemp, hrep]

/-- C5 witness: the second repo entry of `missingGitDoc` lacks git and the
error is tagged with index 1. -/
theorem validateRawConfig_repos_checks_witness :
    validateRawConfig missingGitDoc
      = Except.error "Repo at index 1 missing required field: git" :=
  validateRawConfig_repos_checks.2.2.1 missingGitDoc 1 (RawRepoEntry.mk none none)
    (by decide) (by decide)
    (by intro j rj hj hgj
        interval_cases j
        simp [missingGitDoc] at hgj
        rw [← hgj]
        decide)
    (by decide)

theorem validateFileName_bad_ne_ok (fn : String)
    (h : fn = "" ∨ hasDotDotSegment fn = true ∨ isAbsolutePath fn = true ∨
         hasCtlChar fn = true) :
    validateFileName fn ≠ Except.ok () := by
  rw [validateFileName]
  split_ifs with h1 h2 h3 h4
  · simp
  · simp
  · simp
  · simp
  · rcases h with h | h | h | h
    · exact absurd h h1
    · exact absurd h h2
    · exact absurd h h3
    · exact absurd h h4

theorem validateFileNames_mem_bad :
    ∀ (files : List (String × FileSpec)) (fn : String) (fs : FileSpec),
      (fn, fs) ∈ files → validateFileName fn ≠ Except.ok () →
      validateFileNames files ≠ Except.ok () := by
  intro files
  induction files with
  | nil => intro fn fs hmem; simp at hmem
  | cons p rest ih =>
      obtain ⟨f0, s0⟩ := p
      intro fn fs hmem hbad hok
      cases hv : validateFileName f0 with
      | error e => rw [validateFileNames] at hok; simp [hv, Bind.bind, Except.bind] at hok
      | ok u =>
          obtain ⟨⟩ := u
          rw [validateFileNames] at hok
          simp only [hv, Bind.bind, Except.bind] at hok
          simp at hmem
          cases hmem with
          | inl h0 =>
              rw [h0.1] at hbad
              exact hbad hv
          | inr h2 => exact ih fn fs h2 hbad hok

/-- C6: validation fails whenever a target file name is empty, contains a
`..` path segment anywhere, is absolute, or contains a
newline/carriage-return/null byte, each violation class with its own
distinct message, and a safe nested name like `sub/dir/my.config.json` is
accepted. -/
theorem validateRawConfig_fileName_checks :
    (∀ (raw : RawConfig) (fn : String) (fs : FileSpec), (fn, fs) ∈ raw.files →
       (fn = "" ∨ hasDotDotSegment fn = true ∨ isAbsolutePath fn = true ∨
        hasCtlChar fn = true) →
       validateRawConfig raw ≠ Except.ok ()) ∧
    validateFileName "" = Except.error "Config missing required field: fileName" ∧
    validateFileName "../x.json"
      = Except.error "Invalid fileName: must be a relative path (no path traversal)" ∧
    validateFileName "a/../b.json"
      = Except.error "Invalid fileName: must be a relative path (no path traversal)" ∧
    validateFileName "/etc/x.json"
      = Except.error "Invalid fileName: must be a relative path (not an absolute path)" ∧
    validateFileName "x\n.json"
      = Except.error "Invalid fileName: cannot contain newlines or null bytes" ∧
    validateFileName "x\r.json"
      = Except.error "Invalid fileName: cannot contain newlines or null bytes" ∧
    validateFileName "x\x00.json"
      = Except.error "Invalid fileName: cannot contain newlines or null bytes" ∧
    validateFileName "sub/dir/my.config.json" = Except.ok () ∧
    validateRawConfig goodNameDoc = Except.ok () ∧
    ("Config missing required field: fileName"
        ≠ "Invalid fileName: must be a relative path (no path traversal)" ∧
     "Config missing required field: fileName"
        ≠ "Invalid fileName: must be a relative path (not an absolute path)" ∧
     "Config missing required field: fileName"
        ≠ "Invalid fileName: cannot contain newlines or null bytes" ∧
     "Invalid fileName: must be a relative path (no path traversal)"
        ≠ "Invalid fileName: must be a relative path (not an absolute path)" ∧
     "Invalid fileName: must be a relative path (no path traversal)"
        ≠ "Invalid fileName: cannot contain newlines or null bytes" ∧
     "Invalid fileName: must be a relative path (not an absolute path)"
        ≠ "Invalid fileName: cannot contain newlines or null bytes") := by
  refine ⟨?_, by decide, by decide, by decide, by decide, by decide, by decide, by decide,
    by decide, by decide, by decide⟩
  intro raw fn fs hmem hbad hok
  cases hv : validateFileNames raw.files with
  | error e => rw [validateRawConfig] at hok; simp [hv, Bind.bind, Except.bind] at hok
  | ok u =>
      obtain ⟨⟩ := u
      exact validateFileNames_mem_bad raw.files fn fs hmem
        (validateFileName_bad_ne_ok fn hbad) hv

/-- C6 witness: a document whose file name contains a traversal segment is
rejected. -/
theorem validateRawConfig_fileName_checks_witness :
    validateRawConfig traversalNameDoc ≠ Except.ok () :=
  validateRawConfig_fileName_checks.1 traversalNameDoc "../x.json"
    (FileSpec.mk (some JsonFields.nil) none none)
    (by decide) (Or.inr (Or.inl (by decide)))

theorem parsePlaceholder_plain (name rest : List Char) (hne : name ≠ [])
    (hn : ∀ c ∈ name, isNameChar c = true) :
    parsePlaceholder (name ++ '}' :: rest) = some (name, VarForm.plain, rest) := by
  have ht := takeName_eq_of name ('}' :: rest) hn
    (by intro c cs2 he
        injection he with h1 _
        rw [← h1]
        decide)
  cases name with
  | nil => exact absurd rfl hne
  | cons c nm =>
      rw [parsePlaceholder, ht]
      simp [parseFormAfter]

theorem parsePlaceholder_dflt (name d rest : List Char) (hne : name ≠ [])
    (hn : ∀ c ∈ name, isNameChar c = true) (hd : ∀ c ∈ d, c ≠ '}') :
    parsePlaceholder (name ++ ':' :: '-' :: (d ++ '}' :: rest))
      = some (name, VarForm.dflt d, rest) := by
  have ht := takeName_eq_of name (':' :: '-' :: (d ++ '}' :: rest)) hn
    (by intro c cs2 he
        injection he with h1 _
        rw [← h1]
        decide)
  cases name with
  | nil => exact absurd rfl hne
  | cons c nm =>
      rw [parsePlaceholder, ht]
      simp [parseFormAfter, splitAtBrace_eq_of d rest hd]

theorem parsePlaceholder_req (name m rest : List Char) (hne : name ≠ [])
    (hn : ∀ c ∈ name, isNameChar c = true) (hm : ∀ c ∈ m, c ≠ '}') :
    parsePlaceholder (name ++ ':' :: '?' :: (m ++ '}' :: rest))
      = some (name, VarForm.req m, rest) := by
  have ht := takeName_eq_of name (':' :: '?' :: (m ++ '}' :: rest)) hn
    (by intro c cs2 he
        injection he with h1 _
        rw [← h1]
        decide)
  cases name with
  | nil => exact absurd rfl hne
  | cons c nm =>
      rw [parsePlaceholder, ht]
      simp [parseFormAfter, splitAtBrace_eq_of m rest hm]

/-- One scanner step on a recognized placeholder at the head of the
input: the occurrence is resolved by its form and scanning continues
independently after it. -/
theorem interpolateChars_placeholder (env : String → Option String) (strict : Bool)
    (cs2 name : List Char) (form : VarForm) (rest : List Char)
    (hp : parsePlaceholder cs2 = some (name, form, rest)) :
    interpolateChars env strict ('$' :: '{' :: cs2) =
      match form with
      | VarForm.plain =>
          match env (String.mk name) with
          | some v => (fun t => v.data ++ t) <$> interpolateChars env strict rest
          | none =>
              if strict then
                Except.error ("Missing required environment variable: " ++ String.mk name)
              else
                (fun t => '$' :: '{' :: (name ++ '}' :: t)) <$> interpolateChars env strict rest
      | VarForm.dflt d =>
          (fun t =>
             (match env (String.mk name) with
              | some v => v.data
              | none => d) ++ t) <$> interpolateChars env strict rest
      | VarForm.req m =>
          match env (String.mk name) with
          | some v => (fun t => v.data ++ t) <$> interpolateChars env strict rest
          | none => Except.error (String.mk name ++ ": " ++ String.mk m) := by
  have hlen : rest.length < cs2.length := parsePlaceholder_length cs2 name form rest hp
  have hfuel : rest.length < cs2.length + 2 := by omega
  have hstep : interpolateChars env strict ('$' :: '{' :: cs2)
      = interpScan env strict (cs2.length + 2 + 1) ('$' :: '{' :: cs2) := by
    rw [interpolateChars]
    simp
  rw [hstep]
  have her := interpScan_eq_interpolateChars env strict (cs2.length + 2) rest (by omega)
  cases form with
  | plain =>
      cases he : env (String.mk name) with
      | some v => simp [interpScan, hp, he, her]
      | none =>
          cases strict with
          | true => simp [interpScan, hp, he]
          | false => simp [interpScan, hp, he, her]
  | dflt d => simp [interpScan, hp, her]
  | req m =>
      cases he : env (String.mk name) with
      | some v => simp [interpScan, hp, he, her]
      | none => simp [interpScan, hp, he]

/-- C8: a `dollar-brace NAME :- default` occurrence substitutes the
environment value whenever NAME is defined — including when it is defined
as the empty string, whose data is empty — and substitutes the literal
default text only when NAME is entirely undefined; scanning continues
independently on the rest of the string. -/
theorem interpolate_default_form :
    ∀ (env : String → Option String) (strict : Bool) (name d rest : List Char),
      name ≠ [] → (∀ c ∈ name, isNameChar c = true) → (∀ c ∈ d, c ≠ '}') →
      interpolateChars env strict ('$' :: '{' :: (name ++ ':' :: '-' :: (d ++ '}' :: rest)))
        = (fun t =>
             (match env (String.mk name) with
              | some v => v.data
              | none => d) ++ t) <$> interpolateChars env strict rest := by
  intro env strict name d rest hne hn hd
  have hp := parsePlaceholder_dflt name d rest hne hn hd
  have h2 := interpolateChars_placeholder env strict _ name (VarForm.dflt d) rest hp
  simpa using h2

/-- C8 witness: `EMPTY` defined as the empty string yields the empty
result (the default is not used); an undefined variable yields the
default. -/
theorem interpolate_default_form_witness :
    interpolateChars emptyVarEnv true
      ('$' :: '{' :: ("EMPTY".data ++ ':' :: '-' :: ("fallback".data ++ '}' :: [])))
      = (fun t =>
           (match emptyVarEnv (String.mk "EMPTY".data) with
            | some v => v.data
            | none => "fallback".data) ++ t) <$> interpolateChars emptyVarEnv true [] ∧
    interpolateString emptyVarEnv true "${EMPTY:-fallback}" = Except.ok "" ∧
    interpolateString noEnv true "${MISSING:-fallback}" = Except.ok "fallback" :=
  ⟨interpolate_default_form emptyVarEnv true _ _ _ (by decide) (by decide) (by decide),
   by decide, by decide⟩

/-- C9: interpolation fails exactly on occurrences that require a missing
variable: a plain occurrence with the variable defined substitutes its
value; undefined it fails in strict mode with the
missing-required-variable message but in non-strict mode leaves the
placeholder text unchanged and continues; a required (colon-question)
occurrence substitutes when defined and fails in every mode when
undefined, with an error combining the variable name and the message. -/
theorem interpolate_plain_and_required :
    ∀ (env : String → Option String) (name rest : List Char),
      name ≠ [] → (∀ c ∈ name, isNameChar c = true) →
      ((∀ (v : String) (strict : Bool), env (String.mk name) = some v →
          interpolateChars env strict ('$' :: '{' :: (name ++ '}' :: rest))
            = (fun t => v.data ++ t) <$> interpolateChars env strict rest) ∧
       (env (String.mk name) = none →
          interpolateChars env true ('$' :: '{' :: (name ++ '}' :: rest))
            = Except.error ("Missing required environment variable: " ++ String.mk name)) ∧
       (env (String.mk name) = none →
          interpolateChars env false ('$' :: '{' :: (name ++ '}' :: rest))
            = (fun t => '$' :: '{' :: (name ++ '}' :: t)) <$>
                interpolateChars env false rest) ∧
       (∀ (m : List Char) (strict : Bool), (∀ c ∈ m, c ≠ '}') →
          env (String.mk name) = none →
          interpolateChars env strict ('$' :: '{' :: (name ++ ':' :: '?' :: (m ++ '}' :: rest)))
            = Except.error (String.mk name ++ ": " ++ String.mk m)) ∧
       (∀ (m : List Char) (v : String) (strict : Bool), (∀ c ∈ m, c ≠ '}') →
          env (String.mk name) = some v →
          interpolateChars env strict ('$' :: '{' :: (name ++ ':' :: '?' :: (m ++ '}' :: rest)))
            = (fun t => v.data ++ t) <$> interpolateChars env strict rest)) := by
  intro env name rest hne hn
  refine ⟨?_, ?_, ?_, ?_, ?_⟩
  · intro v strict he
    have hp := parsePlaceholder_plain name rest hne hn
    have h2 := interpolateChars_placeholder env strict _ name VarForm.plain rest hp
    rw [he] at h2
    simpa using h2
  · intro he
    have hp := parsePlaceholder_plain name rest hne hn
    have h2 := interpolateChars_placeholder env true _ name VarForm.plain rest hp
    rw [he] at h2
    simpa using h2
  · intro he
    have hp := parsePlaceholder_plain name rest hne hn
    have h2 := interpolateChars_placeholder env false _ name VarForm.plain rest hp
    rw [he] at h2
    simpa using h2
  · intro m strict hm he
    have hp := parsePlaceholder_req name m rest hne hn hm
    have h2 := interpolateChars_placeholder env strict _ name (VarForm.req m) rest hp
    rw [he] at h2
    simpa using h2
  · intro m v strict hm he
    have hp := parsePlaceholder_req name m rest hne hn hm
    have h2 := interpolateChars_placeholder env strict _ name (VarForm.req m) rest hp
    rw [he] at h2
    simpa using h2

/-- C9 witness: an undefined plain occurrence fails in strict mode; in
non-strict mode the placeholder survives verbatim; an undefined required
occurrence fails with name and message combined. -/
theorem interpolate_plain_and_required_witness :
    interpolateChars noEnv true ('$' :: '{' :: ("MISSING_VAR".data ++ '}' :: []))
      = Except.error ("Missing required environment variable: "
          ++ String.mk "MISSING_VAR".data) ∧
    interpolateString noEnv false "${MISSING_VAR}" = Except.ok "${MISSING_VAR}" ∧
    interpolateString noEnv true "${X:?msg}" = Except.error "X: msg" :=
  ⟨(interpolate_plain_and_required noEnv "MISSING_VAR".data [] (by decide) (by decide)).2.1
      (by decide),
   by decide, by decide⟩

/-- C10: calling interpolateEnvVars without an options argument behaves
exactly as strict mode; in particular an undefined plain occurrence fails
with the missing-required-variable error either way. -/
theorem interpolateEnvVars_default_strict :
    (∀ (env : String → Option String) (v : JsonValue),
       interpolateEnvVars env v none
         = interpolateEnvVars env v (some (EnvInterpolationOptions.mk (some true)))) ∧
    interpolateEnvVars noEnv
      (JsonValue.obj (JsonFields.cons "key" (JsonValue.str "${MISSING_VAR}") JsonFields.nil))
      none
      = Except.error "Missing required environment variable: MISSING_VAR" ∧
    interpolateEnvVars noEnv
      (JsonValue.obj (JsonFields.cons "key" (JsonValue.str "${MISSING_VAR}") JsonFields.nil))
      (some (EnvInterpolationOptions.mk (some true)))
      = Except.error "Missing required environment variable: MISSING_VAR" :=
  ⟨fun env v => rfl, by decide, by decide⟩
